import Mathlib

/-!
# changes-reporter: a verification development for `main.go`

The program shells out to `git`, scrapes the output with regular expressions,
decodes and encodes JSON, and renders Markdown.  The embedding below models

* Go strings as lists of characters (`Str`);
* the three `exec.Command(...).Output()` calls as fields of a `Git` record;
* the leftmost-first backtracking semantics of Go's `regexp` package for the
  fragment the program uses (`Regex`, `Regex.run`, `Regex.doExecute`,
  `Regex.replaceAllString`, `Regex.findAllStringSubmatch`);
* the slice semantics of `json.Unmarshal` (the backing array of `data` is
  reused between calls) by an explicit heap of backing arrays;
* `json.Marshal` / `json.Unmarshal` for the two struct shapes of the program.
-/

namespace ChangesReporter

/-- Go strings, modelled as lists of characters. -/
abbrev Str := List Char

/-! ## Regular expressions -/

/-- Abstract syntax of the regular expressions the program compiles.  `cap n a` is the
capturing group number `n`; `bot` and `eot` are `^` and `$` without the multi-line flag.
-/
inductive Regex where
  | empty
  | lit (c : Char)
  | dot
  | cls (p : Char → Bool)
  | cat (a b : Regex)
  | alt (a b : Regex)
  | star (a : Regex)
  | cap (n : Nat) (a : Regex)
  | bot
  | eot

/-- One thread of the backtracking matcher: whether it still stands at the beginning
of the text, the unread text, and the groups closed so far (latest first). -/
structure Thread where
  bos : Bool
  rest : Str
  caps : List (Nat × Str)
deriving DecidableEq

/-- Greedy iteration: try one more round of `body` (rounds that consume nothing are
dropped), and only then stop.  The first argument bounds the number of rounds. -/
def starLoop (body : Thread → List Thread) : Nat → Thread → List Thread
  | 0, t => [t]
  | n + 1, t =>
    ((body t).filter (fun u => decide (u.rest.length < t.rest.length))).flatMap
      (starLoop body n) ++ [t]

/-- All ways of matching a regular expression at the start of a thread, in the order a
backtracking search tries them (the order that decides the leftmost-first match). -/
def Regex.run : Regex → Thread → List Thread
  | .empty, t => [t]
  | .lit c, t =>
    match t.rest with
    | x :: xs => if x = c then [⟨false, xs, t.caps⟩] else []
    | [] => []
  | .dot, t =>
    match t.rest with
    | x :: xs => if x ≠ '\n' then [⟨false, xs, t.caps⟩] else []
    | [] => []
  | .cls p, t =>
    match t.rest with
    | x :: xs => if p x then [⟨false, xs, t.caps⟩] else []
    | [] => []
  | .cat a b, t => (a.run t).flatMap (fun u => b.run u)
  | .alt a b, t => a.run t ++ b.run t
  | .star a, t => starLoop (fun u => a.run u) t.rest.length t
  | .cap n a, t =>
    (a.run t).map (fun u =>
      ⟨u.bos, u.rest, (n, t.rest.take (t.rest.length - u.rest.length)) :: u.caps⟩)
  | .bot, t => if t.bos then [t] else []
  | .eot, t => if t.rest = [] then [t] else []

/-- The literal string `s` as a regular expression. -/
def Regex.lits : Str → Regex
  | [] => .empty
  | c :: cs => .cat (.lit c) (Regex.lits cs)

/-- Number of capturing groups (`NumSubexp`). -/
def Regex.numSubexp : Regex → Nat
  | .cat a b => max a.numSubexp b.numSubexp
  | .alt a b => max a.numSubexp b.numSubexp
  | .star a => a.numSubexp
  | .cap n a => max n a.numSubexp
  | _ => 0

/-- Leftmost-first search over the start positions `pos`, `pos + 1`, ... of the unread
text; the result is the match start, the match end and the closed groups. -/
def Regex.searchFrom (re : Regex) : Nat → Str → Option (Nat × Nat × List (Nat × Str))
  | pos, [] =>
    match (re.run ⟨pos == 0, [], []⟩).head? with
    | some t => some (pos, pos, t.caps)
    | none => none
  | pos, c :: cs =>
    match (re.run ⟨pos == 0, c :: cs, []⟩).head? with
    | some t => some (pos, pos + ((c :: cs).length - t.rest.length), t.caps)
    | none => re.searchFrom (pos + 1) cs

/-- The first match of `re` in `src` that starts at `searchPos` or later. -/
def Regex.doExecute (re : Regex) (src : Str) (searchPos : Nat) :
    Option (Nat × Nat × List (Nat × Str)) :=
  re.searchFrom searchPos (src.drop searchPos)

/-- The loop of `Regexp.replaceAll`: copy the text before each match, insert the
replacement (not for an empty match that abuts the previous match) and advance by at
least one character.  The replacement text is inserted literally (the program's
replacement texts contain no `$`). -/
def Regex.replaceAllLoop (re : Regex) (src repl : Str) : Nat → Nat → Nat → Str → Str
  | 0, _, lastMatchEnd, buf => buf ++ src.drop lastMatchEnd
  | fuel + 1, searchPos, lastMatchEnd, buf =>
    if searchPos ≤ src.length then
      match re.doExecute src searchPos with
      | none => buf ++ src.drop lastMatchEnd
      | some (a0, a1, _) =>
        let buf1 := buf ++ (src.drop lastMatchEnd).take (a0 - lastMatchEnd)
        let buf2 := if a1 > lastMatchEnd ∨ a0 = 0 then buf1 ++ repl else buf1
        let searchPos1 := if searchPos + 1 > a1 then searchPos + 1 else a1
        re.replaceAllLoop src repl fuel searchPos1 a1 buf2
    else buf ++ src.drop lastMatchEnd

/-- Go's `re.ReplaceAllString(src, repl)`; every round of the loop advances the search
position, so `src.length + 2` rounds are never exhausted. -/
def Regex.replaceAllString (re : Regex) (src repl : Str) : Str :=
  re.replaceAllLoop src repl (src.length + 2) 0 0 []

/-- The text of group `n` among the closed groups; an unmatched group is empty. -/
def capture (caps : List (Nat × Str)) (n : Nat) : Str :=
  match caps.find? (fun e => e.1 == n) with
  | some e => e.2
  | none => []

/-- The submatch row of one match: the whole match followed by the groups
`1 .. NumSubexp`. -/
def Regex.submatches (re : Regex) (s : Str) (a0 a1 : Nat) (caps : List (Nat × Str)) :
    List Str :=
  (s.drop a0).take (a1 - a0) :: (List.range re.numSubexp).map (fun i => capture caps (i + 1))

/-- The loop of `Regexp.allMatches` behind `FindAllStringSubmatch(s, -1)`. -/
def Regex.allMatches (re : Regex) (s : Str) : Nat → Nat → Option Nat → List (List Str)
  | 0, _, _ => []
  | fuel + 1, pos, prevMatchEnd =>
    if pos ≤ s.length then
      match re.doExecute s pos with
      | none => []
      | some (a0, a1, caps) =>
        let accept := !(decide (a1 = pos) && decide (prevMatchEnd = some a0))
        let pos1 := if a1 = pos then pos + 1 else a1
        let more := re.allMatches s fuel pos1 (some a1)
        if accept then re.submatches s a0 a1 caps :: more else more
    else []

/-- Go's `re.FindAllStringSubmatch(s, -1)`. -/
def Regex.findAllStringSubmatch (re : Regex) (s : Str) : List (List Str) :=
  re.allMatches s (s.length + 2) 0 none

/-! ## Data model -/

/-- The commit record `CommitMessage`. -/
structure CommitMessage where
  ShortCommit : Str
  Commit : Str
  Author : Str
  Email : Str
  Date : Str
  Message : Str
deriving DecidableEq

/-- The change group `ChangeLog`, with the commits its slice shows when read. -/
structure ChangeLog where
  NameTags : Str
  Commits : List CommitMessage
deriving DecidableEq

/-- The aggregate `Report`; the release pattern is kept as its syntax tree. -/
structure Report where
  pattern : Regex
  originURL : Str
  ChangeLog : List ChangeLog
  JSON : Str
  Markdown : Str
  HTML : Str

/-! ## Range building (`fetchChanges`, lines 80 to 83) -/

/-- The loop `for i := 0; i < len(tags)-1; i++ { diffs = append(diffs, ...) }`. The
comparison is on Go `int`, so an empty tag list gives the bound `-1`. -/
def diffLoop (tags : List Str) : Nat → Nat → List Str → List Str
  | 0, _, diffs => diffs
  | fuel + 1, i, diffs =>
    if (i : Int) < (tags.length : Int) - 1 then
      diffLoop tags fuel (i + 1)
        (diffs ++ [tags.getD (i + 1) [] ++ "..".toList ++ tags.getD i []])
    else diffs

/-- The range strings `diffs` built from the tag list. -/
def buildDiffs (tags : List Str) : List Str :=
  diffLoop tags tags.length 0 []

/-! ## Markdown rendering -/

/-- The regular expression of `toMarkdown`: a single hyphen. -/
def spaceRe : Regex := .lit '-'

/-- The method `CommitMessage.toMarkdown`. -/
def CommitMessage.toMarkdown (c : CommitMessage) (originURL : Str) : Str :=
  let commitURL := originURL ++ "commit/".toList ++ c.Commit
  "* [".toList ++ c.ShortCommit ++ "](".toList ++ commitURL ++ ") ".toList ++
    spaceRe.replaceAllString c.Message " ".toList ++ " [".toList ++ c.Author ++
    "](mailto:".toList ++ c.Email ++ ")\n".toList

/-- The method `Report.getMarkdown`: the returned text and the report afterwards. -/
def Report.getMarkdown (r : Report) : Str × Report :=
  if r.Markdown.length > 0 then (r.Markdown, r)
  else
    let mdBuffer := r.ChangeLog.foldl (fun buf change =>
      change.Commits.foldl (fun buf commit => buf ++ commit.toMarkdown r.originURL)
        (buf ++ ("\n## ".toList ++ change.NameTags ++ " \n\n".toList)))
      "# Changelog\n".toList
    (mdBuffer, { r with Markdown := mdBuffer })

/-! ## Origin URL (`fetchProjectURL`) -/

/-- The first regular expression of `fetchProjectURL`: a colon. -/
def colonRe : Regex := .lit ':'

/-- The second regular expression of `fetchProjectURL`: `\.git\n$`. -/
def dotGitRe : Regex := .cat (Regex.lits ".git\n".toList) .eot

/-- The third regular expression of `fetchProjectURL`: `^git@`. -/
def gitAtRe : Regex := .cat .bot (Regex.lits "git@".toList)

/-- The function `fetchProjectURL`, applied to the output of
`git config --get remote.origin.url` (empty when the command fails). -/
def fetchProjectURL (out : Str) : Str :=
  let originURL := out
  let originURL := colonRe.replaceAllString originURL "/".toList
  let originURL := dotGitRe.replaceAllString originURL "/".toList
  let originURL := gitAtRe.replaceAllString originURL "https://".toList
  originURL

/-- Step (a) in the words of the specification: the first colon, and only the first
colon, becomes a slash. -/
def replaceFirstColon : Str → Str
  | [] => []
  | c :: cs => if c = ':' then '/' :: cs else c :: replaceFirstColon cs

/-- Step (a) as the code has it: every colon becomes a slash. -/
def replaceEveryColon (s : Str) : Str :=
  s.map (fun c => if c = ':' then '/' else c)

/-- Step (b): a trailing `.git` plus newline becomes a single slash. -/
def replaceTrailingDotGit (s : Str) : Str :=
  if ".git\n".toList <:+ s then s.take (s.length - 5) ++ "/".toList else s

/-- Step (c): a leading `git@` becomes `https://`. -/
def replaceLeadingGitAt (s : Str) : Str :=
  if "git@".toList <+: s then "https://".toList ++ s.drop 4 else s

/-- The three normalisations in the words of the specification, in order. -/
def normalizeBySpec (s : Str) : Str :=
  replaceLeadingGitAt (replaceTrailingDotGit (replaceFirstColon s))

/-- The lines of a text, as `strings.Split(s, "\n")` gives them. -/
def splitNL : Str → List Str
  | [] => [[]]
  | c :: cs =>
    if c = '\n' then [] :: splitNL cs
    else
      match splitNL cs with
      | l :: ls => (c :: l) :: ls
      | [] => [[c]]

/-! ## Tag discovery (`fetchTags`) -/

/-- The class `\s` of Go's regular expressions: tab, newline, form feed, carriage
return and space. -/
def isSpace (c : Char) : Bool :=
  c = '\t' || c = '\n' || c = '\x0c' || c = '\r' || c = ' '

/-- The regular expression `(.*\s)@\s.*tag:\s(%v)` of `fetchTags`, with the release
pattern (given by its syntax tree) in the second group. -/
def validTagRe (releasePattern : Regex) : Regex :=
  .cat (.cap 1 (.cat (.star .dot) (.cls isSpace)))
    (.cat (.lit '@') (.cat (.cls isSpace) (.cat (.star .dot)
      (.cat (Regex.lits "tag:".toList) (.cat (.cls isSpace) (.cap 2 releasePattern))))))

/-- The function `fetchTags`, applied to the output of the tag log command (empty when
the command fails). -/
def fetchTags (releasePattern : Regex) (out : Str) : List Str :=
  let uncuratedTags := splitNL out
  let validTag := validTagRe releasePattern
  uncuratedTags.foldl (fun tags tag =>
    let m := validTag.findAllStringSubmatch tag
    if m.length > 0 ∧ (m.getD 0 []).length > 2 then
      tags ++ [((m.getD 0 []).getD 2 []).filter (fun c => c ≠ ',')]
    else tags) []

/-- The characters of the class `[\d{1,4}\.]` in the release pattern of `main`:
digits, braces, comma and full stop. -/
def releaseChar (c : Char) : Bool :=
  c.isDigit || c = '\x7b' || c = ',' || c = '\x7d' || c = '.'

/-- The release pattern of `main`: a `v` followed by one or more characters of the
class `[\d{1,4}\.]`, as many as possible. -/
def mainReleasePattern : Regex :=
  .cat (.lit 'v') (.cat (.cls releaseChar) (.star (.cls releaseChar)))

/-- Try `f` on every end piece of the text, the shortest end piece first. -/
def rightmost {α : Type} (f : Str → Option α) : Str → Option α
  | [] => f []
  | c :: cs =>
    match rightmost f cs with
    | some x => some x
    | none => f (c :: cs)

/-- The text the release pattern takes at the start of `s`, when it matches there. -/
def patternAt (releasePattern : Regex) (s : Str) : Option Str :=
  ((releasePattern.run ⟨false, s, []⟩).head?).map (fun v => s.take (s.length - v.rest.length))

/-- The text the release pattern takes right after `tag:` and one blank at the start of
`s`. -/
def tagAt (releasePattern : Regex) : Str → Option Str
  | c1 :: c2 :: c3 :: c4 :: w :: s =>
    if c1 = 't' ∧ c2 = 'a' ∧ c3 = 'g' ∧ c4 = ':' ∧ isSpace w = true then
      patternAt releasePattern s
    else none
  | _ => none

/-- The last tag of the text at which the release pattern matches, provided the text
starts with a blank, `@` and a blank. -/
def tagAfterAt (releasePattern : Regex) : Str → Option Str
  | w1 :: c :: w2 :: s =>
    if isSpace w1 = true ∧ c = '@' ∧ isSpace w2 = true then
      rightmost (tagAt releasePattern) s
    else none
  | _ => none

/-- What one line of the tag log contributes: after the last blank-`@`-blank separator
that has a matching tag behind it, the text the release pattern takes at the last
`tag:` at which it matches, without commas. -/
def tagOfLine (releasePattern : Regex) (line : Str) : Option Str :=
  (rightmost (tagAfterAt releasePattern) line).map (fun t => t.filter (fun c => c ≠ ','))

/-- A thread with further closed groups recorded below its own. -/
def Thread.withCaps (caps : List (Nat × Str)) (u : Thread) : Thread :=
  ⟨u.bos, u.rest, u.caps ++ caps⟩

/-- The threads of `.*` on a text without newline: every end piece of the text, the
shortest first. -/
def dotThreads (caps : List (Nat × Str)) : Bool → Str → List Thread
  | b, [] => [⟨b, [], caps⟩]
  | b, c :: cs => dotThreads caps false cs ++ [⟨b, c :: cs, caps⟩]

/-- A line of the tag log whose commit carries two release tags. -/
def twoTagLine : Str :=
  "\"2021-01-01 10:00:00 +0000 @ (tag: v1.1, tag: v1.0)\"".toList

/-- A line of the tag log whose commit carries no tag. -/
def noTagLine : Str :=
  "\"2021-01-01 10:00:00 +0000 @ (HEAD -> master)\"".toList

/-! ## JSON texts (`encoding/json`)

The decoder is modelled on the texts the program handles: arrays of objects whose keys
are declared field names and whose values are strings (or, for `Commits`, an array or
`null`).  On every other text the model reports failure. -/

/-- The tokens of a JSON text. -/
inductive Token where
  | lbrack
  | rbrack
  | lbrace
  | rbrace
  | comma
  | colon
  | null
  | str (s : Str)
deriving DecidableEq

/-- Where the reader stands inside a string literal: between characters, after a
backslash, inside the four digits of `\u`, or behind a surrogate `hi` that waits for
its partner. -/
inductive Esc where
  | normal
  | esc
  | hex (k v : Nat)
  | pend (hi : Nat)
  | pendEsc (hi : Nat)
  | pendHex (hi k v : Nat)

/-- The effect of one character of a string literal: failure, the closing quote, or
further characters to read; `out` is what the character adds to the decoded string. -/
inductive Step where
  | fail
  | done (out : Str)
  | next (out : Str) (st : Esc)

/-- The step with one more character in front of its output. -/
def Step.emitFirst (c : Char) : Step → Step
  | .fail => .fail
  | .done out => .done (c :: out)
  | .next out st => .next (c :: out) st

/-- The value of a hexadecimal digit. -/
def hexVal (c : Char) : Option Nat :=
  if '0' ≤ c ∧ c ≤ '9' then some (c.toNat - '0'.toNat)
  else if 'a' ≤ c ∧ c ≤ 'f' then some (c.toNat - 'a'.toNat + 10)
  else if 'A' ≤ c ∧ c ≤ 'F' then some (c.toNat - 'A'.toNat + 10)
  else none

/-- The replacement character U+FFFD. -/
def replacementChar : Char := Char.ofNat 0xFFFD

/-- A character between characters: the closing quote, a backslash, a control character
(not allowed) or an ordinary character. -/
def stepNormal (c : Char) : Step :=
  if c = '"' then .done []
  else if c = '\\' then .next [] .esc
  else if c.toNat < 0x20 then .fail
  else .next [c] .normal

/-- The character after a backslash. -/
def stepEsc (c : Char) : Step :=
  if c = '"' ∨ c = '\\' ∨ c = '/' then .next [c] .normal
  else if c = 'b' then .next ['\x08'] .normal
  else if c = 'f' then .next ['\x0c'] .normal
  else if c = 'n' then .next ['\n'] .normal
  else if c = 'r' then .next ['\r'] .normal
  else if c = 't' then .next ['\t'] .normal
  else if c = 'u' then .next [] (.hex 4 0)
  else .fail

/-- The end of a `\u` escape with value `v`: a surrogate waits for its partner, any
other value is the character itself. -/
def finishRune (v : Nat) : Step :=
  if 0xD800 ≤ v ∧ v < 0xE000 then .next [] (.pend v) else .next [Char.ofNat v] .normal

/-- The end of a second `\u` escape with value `lo` behind the surrogate `hi`: a valid
pair is one character, otherwise the first escape becomes U+FFFD and the second is
read on its own. -/
def finishPair (hi lo : Nat) : Step :=
  if 0xD800 ≤ hi ∧ hi < 0xDC00 ∧ 0xDC00 ≤ lo ∧ lo < 0xE000 then
    .next [Char.ofNat ((hi - 0xD800) * 0x400 + (lo - 0xDC00) + 0x10000)] .normal
  else (finishRune lo).emitFirst replacementChar

/-- One character of a string literal (the loop of `unquote`). -/
def unquoteStep : Esc → Char → Step
  | .normal, c => stepNormal c
  | .esc, c => stepEsc c
  | .hex k v, c =>
    match hexVal c with
    | none => .fail
    | some d => if k ≤ 1 then finishRune (v * 16 + d) else .next [] (.hex (k - 1) (v * 16 + d))
  | .pend hi, c =>
    if c = '\\' then .next [] (.pendEsc hi) else (stepNormal c).emitFirst replacementChar
  | .pendEsc hi, c =>
    if c = 'u' then .next [] (.pendHex hi 4 0) else (stepEsc c).emitFirst replacementChar
  | .pendHex hi k v, c =>
    match hexVal c with
    | none => .fail
    | some d =>
      if k ≤ 1 then finishPair hi (v * 16 + d) else .next [] (.pendHex hi (k - 1) (v * 16 + d))

/-- Where the scanner stands: between tokens, inside a string literal (with the text
decoded so far), or inside the literal `null` (with the characters still expected). -/
inductive Lex where
  | outside
  | inStr (e : Esc) (acc : Str)
  | inNull (expect : Str)

/-- The JSON white space. -/
def isJsonSpace (c : Char) : Bool :=
  c = ' ' || c = '\t' || c = '\r' || c = '\n'

/-- The scanner: the tokens of a JSON text, or failure. -/
def tokenize : Lex → Str → Option (List Token)
  | .outside, [] => some []
  | .inStr _ _, [] => none
  | .inNull _, [] => none
  | .outside, c :: cs =>
    if isJsonSpace c then tokenize .outside cs
    else if c = '[' then (tokenize .outside cs).map (fun ts => Token.lbrack :: ts)
    else if c = ']' then (tokenize .outside cs).map (fun ts => Token.rbrack :: ts)
    else if c = '\x7b' then (tokenize .outside cs).map (fun ts => Token.lbrace :: ts)
    else if c = '\x7d' then (tokenize .outside cs).map (fun ts => Token.rbrace :: ts)
    else if c = ',' then (tokenize .outside cs).map (fun ts => Token.comma :: ts)
    else if c = ':' then (tokenize .outside cs).map (fun ts => Token.colon :: ts)
    else if c = '"' then tokenize (.inStr .normal []) cs
    else if c = 'n' then tokenize (.inNull ['u', 'l', 'l']) cs
    else none
  | .inStr e acc, c :: cs =>
    match unquoteStep e c with
    | .fail => none
    | .done out => (tokenize .outside cs).map (fun ts => Token.str (acc ++ out) :: ts)
    | .next out e1 => tokenize (.inStr e1 (acc ++ out)) cs
  | .inNull expect, c :: cs =>
    match expect with
    | [] => none
    | [x] => if c = x then (tokenize .outside cs).map (fun ts => Token.null :: ts) else none
    | x :: xs => if c = x then tokenize (.inNull xs) cs else none

/-- The fields of `CommitMessage`. -/
inductive Field where
  | shortcommit
  | commit
  | author
  | email
  | date
  | message
deriving DecidableEq

/-- The field a JSON key names (the `json` tags of `CommitMessage`). -/
def fieldOfKey (k : Str) : Option Field :=
  if k = "shortcommit".toList then some .shortcommit
  else if k = "commit".toList then some .commit
  else if k = "author".toList then some .author
  else if k = "email".toList then some .email
  else if k = "date".toList then some .date
  else if k = "message".toList then some .message
  else none

/-- Assignment to one field. -/
def CommitMessage.set (c : CommitMessage) : Field → Str → CommitMessage
  | .shortcommit, v => { c with ShortCommit := v }
  | .commit, v => { c with Commit := v }
  | .author, v => { c with Author := v }
  | .email, v => { c with Email := v }
  | .date, v => { c with Date := v }
  | .message, v => { c with Message := v }

/-- Decoding an object INTO an existing record: the members are assigned in order, a
field without member keeps its value. -/
def CommitMessage.assign (c : CommitMessage) (ms : List (Field × Str)) : CommitMessage :=
  ms.foldl (fun c m => c.set m.1 m.2) c

/-- The zero value of `CommitMessage`. -/
def zeroCommit : CommitMessage := ⟨[], [], [], [], [], []⟩

/-- The members of a commit object, after the opening brace of a non-empty object. -/
def parseMembers : List Token → Option (List (Field × Str) × List Token)
  | .str k :: .colon :: .str v :: .comma :: rest =>
    match fieldOfKey k, parseMembers rest with
    | some f, some (ms, rest1) => some ((f, v) :: ms, rest1)
    | _, _ => none
  | .str k :: .colon :: .str v :: .rbrace :: rest =>
    match fieldOfKey k with
    | some f => some ([(f, v)], rest)
    | none => none
  | _ => none

/-- A commit object. -/
def parseObject : List Token → Option (List (Field × Str) × List Token)
  | .lbrace :: .rbrace :: rest => some ([], rest)
  | .lbrace :: rest => parseMembers rest
  | _ => none

/-- A non-empty list of elements separated by commas and closed by the token `close`
(the elements of an array behind the opening bracket, or the members of an object
behind the opening brace). -/
def sepList {α : Type} (elem : List Token → Option (α × List Token)) (close : Token) :
    Nat → List Token → Option (List α × List Token)
  | 0, _ => none
  | fuel + 1, ts =>
    match elem ts with
    | some (x, t :: rest) =>
      if t = Token.comma then
        match sepList elem close fuel rest with
        | some (xs, rest1) => some (x :: xs, rest1)
        | none => none
      else if t = close then some ([x], rest)
      else none
    | _ => none

/-- A value for a `[]CommitMessage`: `null` (no elements, the slice becomes nil) or an
array of commit objects. -/
def parseCommitArray : List Token → Option (Option (List (List (Field × Str))) × List Token)
  | .null :: rest => some (none, rest)
  | .lbrack :: .rbrack :: rest => some (some [], rest)
  | .lbrack :: rest =>
    match sepList parseObject .rbrack rest.length rest with
    | some (ms, rest1) => some (some ms, rest1)
    | none => none
  | _ => none

/-! ## Slices and `json.Unmarshal` into `data` -/

/-- A slice header: backing array, length and capacity. -/
structure Slice where
  arr : Nat
  len : Nat
  cap : Nat
deriving DecidableEq

/-- The backing arrays allocated so far. -/
abbrev Heap := List (List CommitMessage)

/-- The elements a slice shows. -/
def Heap.read (h : Heap) (v : Slice) : List CommitMessage :=
  (h.getD v.arr []).take v.len

/-- Assignment to element `i` of a backing array. -/
def Heap.write (h : Heap) (arr i : Nat) (c : CommitMessage) : Heap :=
  h.set arr ((h.getD arr []).set i c)

/-- The nil slice. -/
def nilSlice : Slice := ⟨0, 0, 0⟩

/-- The capacity `decodeState.array` grows a full slice to: half as much again, at
least 4. -/
def growCap (cap : Nat) : Nat :=
  max (cap + cap / 2) 4

/-- The loop of `decodeState.array` on a slice: element `i` is decoded INTO slot `i` of
the backing array; the slice is copied to a larger backing array only when `i` reaches
the capacity. -/
def storeElems : List (List (Field × Str)) → Nat → Heap → Slice → Heap × Slice
  | [], i, h, v =>
    let v1 : Slice := if i < v.len then { v with len := i } else v
    if i = 0 then (h ++ [[]], ⟨h.length, 0, 0⟩) else (h, v1)
  | e :: es, i, h, v =>
    let grown : Heap × Slice :=
      if i ≥ v.cap then
        (h ++ [h.read v ++ List.replicate (growCap v.cap - v.len) zeroCommit],
          ⟨h.length, v.len, growCap v.cap⟩)
      else (h, v)
    let h1 := grown.1
    let v1 := grown.2
    let v2 : Slice := if i ≥ v1.len then { v1 with len := i + 1 } else v1
    let h2 := h1.write v2.arr i (((h1.getD v2.arr []).getD i zeroCommit).assign e)
    storeElems es (i + 1) h2 v2

/-- Go's `json.Unmarshal([]byte(text), &data)` for `data []CommitMessage`: the heap and
the slice afterwards, or failure. -/
def unmarshalCommits (text : Str) (h : Heap) (data : Slice) : Option (Heap × Slice) :=
  match tokenize .outside text with
  | none => none
  | some ts =>
    match parseCommitArray ts with
    | some (none, []) => some (h, nilSlice)
    | some (some elems, []) => some (storeElems elems 0 h data)
    | _ => none

/-! ## Commit extraction (`fetchChanges`) -/

/-- What the three `git` commands print; a command that fails prints nothing. -/
structure Git where
  tagLog : Str
  remoteURL : Str
  rangeLog : Str → Str

/-- The regular expression of `fetchChanges`: a comma at the end of the text. -/
def commaEndRe : Regex := .cat (.lit ',') .eot

/-- The state of the loop over the ranges: the heap, the slice `data`, the groups
appended so far (each with its slice header) and the ranges queried so far. -/
structure LoopState where
  heap : Heap
  data : Slice
  changeLogs : List (Str × Slice)
  queries : List Str

/-- The loop `for _, diff := range diffs` of `fetchChanges`.  A panic ends the loop
with the ranges queried so far. -/
def changesLoop (git : Git) : List Str → LoopState → Except (List Str) LoopState
  | [], st => .ok st
  | diff :: diffs, st =>
    let out := git.rangeLog diff
    let outs := "[".toList ++ commaEndRe.replaceAllString out [] ++ "]".toList
    match unmarshalCommits outs st.heap st.data with
    | none => .error (st.queries ++ [diff])
    | some (heap, data) =>
      changesLoop git diffs
        ⟨heap, data, st.changeLogs ++ [(diff, data)], st.queries ++ [diff]⟩

/-- The outcome of `fetchChanges`: the ranges passed to `git log`, and the groups
returned (`none` when the function panics).  The commits of a group are what its slice
shows when the function returns. -/
structure Outcome where
  queries : List Str
  result : Option (List ChangeLog)
deriving DecidableEq

/-- The function `fetchChanges`. -/
def fetchChanges (git : Git) (releasePattern : Regex) : Outcome :=
  let tags := fetchTags releasePattern git.tagLog
  let diffs := buildDiffs tags
  match changesLoop git diffs ⟨[], nilSlice, [], []⟩ with
  | .error queries => ⟨queries, none⟩
  | .ok st => ⟨st.queries, some (st.changeLogs.map (fun g => ⟨g.1, st.heap.read g.2⟩))⟩

/-- The commit records that `json.Unmarshal` decodes from one log output into a fresh
variable. -/
def commitsOf (out : Str) : Option (List CommitMessage) :=
  match unmarshalCommits ("[".toList ++ commaEndRe.replaceAllString out [] ++ "]".toList)
      [] nilSlice with
  | none => none
  | some (heap, data) => some (heap.read data)

/-- The log output of the range `v2.0..v3.0` in the example: two commits. -/
def logTwoCommits : Str :=
  ("\x7b\"shortcommit\":\"a1\", \"commit\":\"a1a1\", \"author\":\"Ann\", " ++
    "\"email\":\"ann@x.com\", \"date\":\"d1\", \"message\":\"first-change\"\x7d,\n" ++
    "\x7b\"shortcommit\":\"b2\", \"commit\":\"b2b2\", \"author\":\"Bob\", " ++
    "\"email\":\"bob@x.com\", \"date\":\"d2\", \"message\":\"second-change\"\x7d,").toList

/-- The log output of the range `v1.0..v2.0` in the example: one commit. -/
def logOneCommit : Str :=
  ("\x7b\"shortcommit\":\"c3\", \"commit\":\"c3c3\", \"author\":\"Cy\", " ++
    "\"email\":\"cy@x.com\", \"date\":\"d3\", \"message\":\"third-change\"\x7d,").toList

/-- A repository with the release tags `v3.0`, `v2.0` and `v1.0`: two commits between
the newer two tags, one commit between the older two. -/
def sampleGit : Git :=
  { tagLog := ("\"2021-03-01 10:00:00 +0000 @ (HEAD -> master, tag: v3.0)\"\n" ++
      "\"2021-02-01 10:00:00 +0000 @ (tag: v2.0)\"\n" ++
      "\"2021-01-01 10:00:00 +0000 @ (tag: v1.0)\"\n").toList
    remoteURL := "git@github.com:org/repo.git\n".toList
    rangeLog := fun range =>
      if range = "v2.0..v3.0".toList then logTwoCommits
      else if range = "v1.0..v2.0".toList then logOneCommit
      else [] }

/-- A repository with the single release tag `v1.0`. -/
def oneTagGit : Git :=
  { tagLog := "\"2021-01-01 10:00:00 +0000 @ (HEAD -> master, tag: v1.0)\"\n".toList
    remoteURL := "git@github.com:org/repo.git\n".toList
    rangeLog := fun _ => logOneCommit }

/-! ## The report (`buildReport`) and its JSON text -/

/-- The lower-case hexadecimal digit of a number below 16. -/
def hexDigit (n : Nat) : Char :=
  "0123456789abcdef".toList.getD n '0'

/-- How `json.Marshal` writes one character of a string: quote and backslash behind a
backslash, newline, carriage return and tab by their letters, the other control
characters and `<`, `>`, `&` as `\u00XX`, U+2028 and U+2029 as `\u202X`, every other
character as it is. -/
def escapeChar (c : Char) : Str :=
  if c = '"' ∨ c = '\\' then ['\\', c]
  else if c = '\n' then ['\\', 'n']
  else if c = '\r' then ['\\', 'r']
  else if c = '\t' then ['\\', 't']
  else if c.toNat < 0x20 ∨ c = '<' ∨ c = '>' ∨ c = '&' then
    ['\\', 'u', '0', '0', hexDigit (c.toNat / 16), hexDigit (c.toNat % 16)]
  else if c = '\u2028' ∨ c = '\u2029' then
    ['\\', 'u', '2', '0', '2', hexDigit (c.toNat % 16)]
  else [c]

/-- A string as `json.Marshal` writes it. -/
def quote (s : Str) : Str :=
  '"' :: (s.flatMap escapeChar ++ ['"'])

/-- The texts of a list separated by commas. -/
def joinComma : List Str → Str
  | [] => []
  | [x] => x
  | x :: y :: xs => x ++ ',' :: joinComma (y :: xs)

/-- One member of an object as `json.Marshal` writes it: key, colon, string value. -/
def marshalMember (k v : Str) : Str :=
  quote k ++ ':' :: quote v

/-- The fields of a `CommitMessage` under their `json` tags, in declaration order. -/
def commitPairs (c : CommitMessage) : List (Str × Str) :=
  [("shortcommit".toList, c.ShortCommit), ("commit".toList, c.Commit),
    ("author".toList, c.Author), ("email".toList, c.Email), ("date".toList, c.Date),
    ("message".toList, c.Message)]

/-- A `CommitMessage` as `json.Marshal` writes it: the six fields under their `json`
tags, in declaration order. -/
def marshalCommit (c : CommitMessage) : Str :=
  '\x7b' :: (joinComma ((commitPairs c).map (fun p => marshalMember p.1 p.2)) ++ ['\x7d'])

/-- The commits of a group as `json.Marshal` writes them.  The slice `data` is never nil
after `json.Unmarshal` has decoded an array into it, so the text is an array. -/
def marshalCommits (cs : List CommitMessage) : Str :=
  '[' :: (joinComma (cs.map marshalCommit) ++ [']'])

/-- A `ChangeLog` as `json.Marshal` writes it: the two fields under their Go names. -/
def marshalChangeLog (g : ChangeLog) : Str :=
  '\x7b' :: (marshalMember "NameTags".toList g.NameTags ++ ',' ::
    (quote "Commits".toList ++ ':' :: marshalCommits g.Commits) ++ ['\x7d'])

/-- Go's `json.Marshal(report.ChangeLog)`: `changeLogs` is nil when there is no range
(the text is `null`) and a non-empty slice otherwise. -/
def marshalChangeLogs : List ChangeLog → Str
  | [] => "null".toList
  | g :: gs => '[' :: (joinComma ((g :: gs).map marshalChangeLog) ++ [']'])

/-- The function `buildReport`; `none` when `fetchChanges` panics. -/
def buildReport (git : Git) (releasePattern : Regex) : Option Report :=
  let originURL := fetchProjectURL git.remoteURL
  match (fetchChanges git releasePattern).result with
  | none => none
  | some changeLog =>
    some { pattern := releasePattern
           originURL := originURL
           ChangeLog := changeLog
           JSON := marshalChangeLogs changeLog
           Markdown := []
           HTML := [] }

/-- One member of a `ChangeLog` object: the range label, or the commits (`none` for
`null`). -/
inductive GroupMember where
  | nameTags (s : Str)
  | commits (v : Option (List (List (Field × Str))))

/-- One member of a `ChangeLog` object, by its key. -/
def parseGroupMember : List Token → Option (GroupMember × List Token)
  | .str k :: .colon :: .str v :: rest =>
    if k = "NameTags".toList then some (.nameTags v, rest) else none
  | .str k :: .colon :: rest =>
    if k = "Commits".toList then
      match parseCommitArray rest with
      | some (v, rest1) => some (.commits v, rest1)
      | none => none
    else none
  | _ => none

/-- A `ChangeLog` object. -/
def parseGroup : List Token → Option (List GroupMember × List Token)
  | .lbrace :: .rbrace :: rest => some ([], rest)
  | .lbrace :: rest => sepList parseGroupMember .rbrace rest.length rest
  | _ => none

/-- A value for a `[]ChangeLog`: `null` or an array of `ChangeLog` objects. -/
def parseGroupArray : List Token → Option (List (List GroupMember) × List Token)
  | .null :: rest => some ([], rest)
  | .lbrack :: .rbrack :: rest => some ([], rest)
  | .lbrack :: rest => sepList parseGroup .rbrack rest.length rest
  | _ => none

/-- The `ChangeLog` decoded from the members of an object into a zero value; an object
that names a field twice is outside the model. -/
def buildGroup : List GroupMember → Option Str → Option (List CommitMessage) →
    Option ChangeLog
  | [], name, commits => some ⟨name.getD [], commits.getD []⟩
  | .nameTags s :: ms, none, commits => buildGroup ms (some s) commits
  | .nameTags _ :: _, some _, _ => none
  | .commits v :: ms, name, none =>
    buildGroup ms name (some ((v.getD []).map (fun e => zeroCommit.assign e)))
  | .commits _ :: _, _, some _ => none

/-- The groups decoded from the objects of an array. -/
def buildGroups : List (List GroupMember) → Option (List ChangeLog)
  | [] => some []
  | m :: ms =>
    match buildGroup m none none, buildGroups ms with
    | some g, some gs => some (g :: gs)
    | _, _ => none

/-- Go's `json.Unmarshal([]byte(text), &groups)` for a fresh `groups []ChangeLog`. -/
def unmarshalChangeLogs (text : Str) : Option (List ChangeLog) :=
  match tokenize .outside text with
  | none => none
  | some ts =>
    match parseGroupArray ts with
    | some (gs, []) => buildGroups gs
    | _ => none

/-- The token lists of a list separated by comma tokens. -/
def joinTokens : List (List Token) → List Token
  | [] => []
  | [x] => x
  | x :: y :: xs => x ++ Token.comma :: joinTokens (y :: xs)

/-- The text scans to the tokens `toks`, whatever follows it. -/
def ScansTo (text : Str) (toks : List Token) : Prop :=
  ∀ t : Str, tokenize .outside (text ++ t) = (tokenize .outside t).map (fun ts => toks ++ ts)

/-- The members of the object `json.Marshal` writes for a commit. -/
def membersOf (c : CommitMessage) : List (Field × Str) :=
  [(.shortcommit, c.ShortCommit), (.commit, c.Commit), (.author, c.Author),
    (.email, c.Email), (.date, c.Date), (.message, c.Message)]

/-- The tokens of the object `json.Marshal` writes for a commit. -/
def commitTokens (c : CommitMessage) : List Token :=
  Token.lbrace ::
    (joinTokens ((commitPairs c).map (fun p => [Token.str p.1, Token.colon, Token.str p.2])) ++
      [Token.rbrace])

/-- The tokens of the array `json.Marshal` writes for the commits of a group. -/
def commitsTokens (cs : List CommitMessage) : List Token :=
  Token.lbrack :: (joinTokens (cs.map commitTokens) ++ [Token.rbrack])

/-- The tokens of the object `json.Marshal` writes for a group. -/
def groupTokens (g : ChangeLog) : List Token :=
  Token.lbrace :: ([Token.str "NameTags".toList, Token.colon, Token.str g.NameTags] ++
    Token.comma :: (Token.str "Commits".toList :: Token.colon :: commitsTokens g.Commits) ++
    [Token.rbrace])

/-- The three commits of the example. -/
def commitA : CommitMessage :=
  ⟨"a1".toList, "a1a1".toList, "Ann".toList, "ann@x.com".toList, "d1".toList,
    "first-change".toList⟩

/-- The second commit of the example. -/
def commitB : CommitMessage :=
  ⟨"b2".toList, "b2b2".toList, "Bob".toList, "bob@x.com".toList, "d2".toList,
    "second-change".toList⟩

/-- The third commit of the example. -/
def commitC : CommitMessage :=
  ⟨"c3".toList, "c3c3".toList, "Cy".toList, "cy@x.com".toList, "d3".toList,
    "third-change".toList⟩

/-- The report `buildReport` returns for the example repository. -/
def sampleReport : Report :=
  { pattern := mainReleasePattern
    originURL := "https://github.com/org/repo/".toList
    ChangeLog :=
      [⟨"v2.0..v3.0".toList, [commitC, commitB]⟩, ⟨"v1.0..v2.0".toList, [commitC]⟩]
    JSON := marshalChangeLogs
      [⟨"v2.0..v3.0".toList, [commitC, commitB]⟩, ⟨"v1.0..v2.0".toList, [commitC]⟩]
    Markdown := []
    HTML := [] }

/-- The result of the last of `n + 1` successive calls of `getMarkdown`. -/
def Report.getMarkdownAgain (r : Report) : Nat → Str × Report
  | 0 => r.getMarkdown
  | n + 1 => (r.getMarkdown).2.getMarkdownAgain n

/-- The report of the end-to-end scenario: one group `v1.0..v2.0` with one commit. -/
def scenarioReport : Report :=
  { pattern := .empty
    originURL := "https://host/org/repo/".toList
    ChangeLog := [⟨"v1.0..v2.0".toList,
      [⟨"abc123".toList, "abc123def".toList, "Jane".toList, "jane@x.com".toList,
        "2021-01-01".toList, "add-feature".toList⟩]⟩]
    JSON := []
    Markdown := []
    HTML := [] }

/-! ## Theorems: range building -/

theorem diffLoop_eq (tags : List Str) :
    ∀ fuel i diffs, tags.length - 1 - i ≤ fuel →
      diffLoop tags fuel i diffs =
        diffs ++ (List.range' i (tags.length - 1 - i)).map
          (fun j => tags.getD (j + 1) [] ++ "..".toList ++ tags.getD j []) := by
  intro fuel
  induction fuel with
  | zero =>
    intro i diffs h
    have h0 : tags.length - 1 - i = 0 := by omega
    simp [diffLoop, h0]
  | succ fuel ih =>
    intro i diffs h
    unfold diffLoop
    by_cases hlt : (i : Int) < (tags.length : Int) - 1
    · have hk : tags.length - 1 - i = (tags.length - 1 - (i + 1)) + 1 := by omega
      rw [if_pos hlt, ih (i + 1) _ (by omega), hk, List.range'_succ]
      simp
    · have h0 : tags.length - 1 - i = 0 := by omega
      rw [if_neg hlt, h0]
      simp

theorem buildDiffs_eq (tags : List Str) :
    buildDiffs tags = (List.range (tags.length - 1)).map
      (fun j => tags.getD (j + 1) [] ++ "..".toList ++ tags.getD j []) := by
  unfold buildDiffs
  rw [diffLoop_eq tags tags.length 0 [] (by omega), List.range_eq_range']
  simp

/-- C1: from `n` tags the range-building loop of `fetchChanges` produces exactly
`max (n - 1) 0` range strings, and the range at index `i` (for `i + 1 < n`) is
`tags[i+1]`, then `..`, then `tags[i]`. -/
theorem buildDiffs_ranges (tags : List Str) :
    ((buildDiffs tags).length : Int) = max ((tags.length : Int) - 1) 0 ∧
    ∀ (i : Nat) (h : i + 1 < tags.length),
      (buildDiffs tags)[i]? =
        some (tags.get ⟨i + 1, h⟩ ++ "..".toList ++ tags.get ⟨i, by omega⟩) := by
  rw [buildDiffs_eq]
  refine ⟨?_, ?_⟩
  · simp only [List.length_map, List.length_range]
    omega
  · intro i h
    have hi : i < tags.length - 1 := by omega
    have h1 : tags[i + 1]? = some tags[i + 1] := List.getElem?_eq_getElem h
    have h2 : tags[i]? = some (tags[i]) := List.getElem?_eq_getElem (by omega)
    simp [List.getElem?_map, List.getElem?_range hi, List.getD_eq_getElem?_getD, h1, h2]

theorem buildDiffs_ranges_witness :
    (buildDiffs ["v2.0".toList, "v1.0".toList])[0]? = some "v1.0..v2.0".toList :=
  (buildDiffs_ranges ["v2.0".toList, "v1.0".toList]).2 0 (by decide)


/-! ## Theorems: replacing a single character -/

theorem run_lit (c : Char) (b : Bool) (s : Str) (caps : List (Nat × Str)) :
    (Regex.lit c).run ⟨b, s, caps⟩ =
      match s with
      | x :: xs => if x = c then [⟨false, xs, caps⟩] else []
      | [] => [] := by
  cases s <;> simp [Regex.run]

theorem searchFrom_lit_none (c : Char) :
    ∀ (s : Str) (pos : Nat), c ∉ s → (Regex.lit c).searchFrom pos s = none := by
  intro s
  induction s with
  | nil => intro pos _; simp [Regex.searchFrom, run_lit]
  | cons x xs ih =>
    intro pos h
    have hx : x ≠ c := fun e => h (by simp [e])
    have hxs : c ∉ xs := fun e => h (by simp [e])
    simp [Regex.searchFrom, run_lit, hx, ih (pos + 1) hxs]

theorem searchFrom_lit_some (c : Char) (ys : Str) :
    ∀ (xs : Str) (pos : Nat), c ∉ xs →
      (Regex.lit c).searchFrom pos (xs ++ c :: ys) =
        some (pos + xs.length, pos + xs.length + 1, []) := by
  intro xs
  induction xs with
  | nil => intro pos _; simp [Regex.searchFrom, run_lit]
  | cons x xs ih =>
    intro pos h
    have hx : x ≠ c := fun e => h (by simp [e])
    have hxs : c ∉ xs := fun e => h (by simp [e])
    simp [Regex.searchFrom, run_lit, hx, ih (pos + 1) hxs]
    omega

/-- Every list splits at the first occurrence of `c`, if there is one. -/
theorem split_at_first (c : Char) :
    ∀ s : Str, c ∉ s ∨ ∃ xs ys, s = xs ++ c :: ys ∧ c ∉ xs := by
  intro s
  induction s with
  | nil => left; simp
  | cons x s ih =>
    by_cases hx : x = c
    · right; exact ⟨[], s, by simp [hx], by simp⟩
    · rcases ih with h | ⟨xs, ys, hs, hn⟩
      · left; simp [h, Ne.symm hx]
      · right; exact ⟨x :: xs, ys, by simp [hs], by simp [hn, Ne.symm hx]⟩

theorem flatMap_not_mem (c : Char) (repl : Str) :
    ∀ s : Str, c ∉ s → s.flatMap (fun x => if x = c then repl else [x]) = s := by
  intro s
  induction s with
  | nil => intro _; rfl
  | cons x s ih =>
    intro h
    have hx : x ≠ c := fun e => h (by simp [e])
    have hs : c ∉ s := fun e => h (by simp [e])
    simp [List.flatMap_cons, hx, ih hs]

theorem replaceAllLoop_lit (c : Char) (src repl : Str) :
    ∀ (fuel p : Nat) (buf : Str), p ≤ src.length → src.length - p < fuel →
      (Regex.lit c).replaceAllLoop src repl fuel p p buf =
        buf ++ (src.drop p).flatMap (fun x => if x = c then repl else [x]) := by
  intro fuel
  induction fuel with
  | zero => intro p buf _ h; omega
  | succ fuel ih =>
    intro p buf hp hf
    unfold Regex.replaceAllLoop
    rw [if_pos hp]
    rcases split_at_first c (src.drop p) with h | ⟨xs, ys, hs, hn⟩
    · simp [Regex.doExecute, searchFrom_lit_none c _ p h, flatMap_not_mem c repl _ h]
    · have hlen : (src.drop p).length = xs.length + (ys.length + 1) := by
        rw [hs]; simp
      have hlen2 : src.length - p = xs.length + (ys.length + 1) := by
        rw [← hlen]; simp
      have hdrop : src.drop (p + xs.length + 1) = ys := by
        have : src.drop (p + xs.length + 1) = (src.drop p).drop (xs.length + 1) := by
          rw [List.drop_drop]; congr 1
        rw [this, hs]
        simp
      simp only [Regex.doExecute, hs, searchFrom_lit_some c ys xs p hn]
      have h1 : ¬ (p + 1 > p + xs.length + 1) := by omega
      have h2 : p + xs.length + 1 > p ∨ p + xs.length = 0 := by left; omega
      rw [if_neg h1, if_pos h2, ih (p + xs.length + 1) _ (by omega) (by omega), hdrop]
      simp [List.flatMap_append, List.flatMap_cons, flatMap_not_mem c repl xs hn]

/-- Replacing all matches of a one-character pattern replaces each occurrence of the
character by the replacement text and keeps every other character. -/
theorem replaceAllString_lit (c : Char) (src repl : Str) :
    (Regex.lit c).replaceAllString src repl =
      src.flatMap (fun x => if x = c then repl else [x]) := by
  unfold Regex.replaceAllString
  rw [replaceAllLoop_lit c src repl _ 0 [] (by omega) (by omega)]
  simp

theorem flatMap_single_eq_map (c r : Char) :
    ∀ s : Str, s.flatMap (fun x => if x = c then [r] else [x]) =
      s.map (fun x => if x = c then r else x) := by
  intro s
  induction s with
  | nil => rfl
  | cons x s ih => by_cases hx : x = c <;> simp [List.flatMap_cons, hx, ih]

/-! ## Theorems: Markdown rendering -/

/-- C2: `toMarkdown` returns exactly the bullet
`* [short](origin ++ commit/ ++ full) m [author](mailto:email)` followed by a newline,
where `m` is the message with every hyphen replaced by a space and every other character
kept; the other fields and the origin URL are copied unchanged. -/
theorem toMarkdown_eq (c : CommitMessage) (u : Str) :
    c.toMarkdown u =
      "* [".toList ++ c.ShortCommit ++ "](".toList ++ u ++ "commit/".toList ++ c.Commit ++
        ") ".toList ++ c.Message.map (fun ch => if ch = '-' then ' ' else ch) ++
        " [".toList ++ c.Author ++ "](mailto:".toList ++ c.Email ++ ")\n".toList ∧
    spaceRe.replaceAllString "fix-bug-in-parser".toList " ".toList =
      "fix bug in parser".toList := by
  refine ⟨?_, by decide⟩
  have h : " ".toList = [' '] := rfl
  simp only [CommitMessage.toMarkdown, spaceRe, replaceAllString_lit, h,
    flatMap_single_eq_map, List.append_assoc]

theorem foldl_commits (u : Str) :
    ∀ (cs : List CommitMessage) (buf : Str),
      cs.foldl (fun buf commit => buf ++ commit.toMarkdown u) buf =
        buf ++ (cs.map (fun c => c.toMarkdown u)).flatten := by
  intro cs
  induction cs with
  | nil => intro buf; simp
  | cons c cs ih => intro buf; simp [List.foldl_cons, ih]

theorem foldl_groups (u : Str) :
    ∀ (gs : List ChangeLog) (buf : Str),
      gs.foldl (fun buf change =>
        change.Commits.foldl (fun buf commit => buf ++ commit.toMarkdown u)
          (buf ++ ("\n## ".toList ++ change.NameTags ++ " \n\n".toList))) buf =
        buf ++ (gs.map (fun g => "\n## ".toList ++ g.NameTags ++ " \n\n".toList ++
          (g.Commits.map (fun c => c.toMarkdown u)).flatten)).flatten := by
  intro gs
  induction gs with
  | nil => intro buf; simp
  | cons g gs ih =>
    intro buf
    rw [List.foldl_cons, ih, foldl_commits]
    simp only [List.map_cons, List.flatten_cons, List.append_assoc]

/-- The document `getMarkdown` builds when the cache is empty. -/
theorem getMarkdown_fresh (r : Report) (h : r.Markdown = []) :
    r.getMarkdown.1 = "# Changelog\n".toList ++
      (r.ChangeLog.map (fun g => "\n## ".toList ++ g.NameTags ++ " \n\n".toList ++
        (g.Commits.map (fun c => c.toMarkdown r.originURL)).flatten)).flatten := by
  have h0 : ¬ (([] : Str).length > 0) := by simp
  simp only [Report.getMarkdown, h, if_neg h0, foldl_groups]

/-- C3 (as the code has it): with an empty cache `getMarkdown` returns the heading line
`# Changelog` and then, for each group in order, an empty line, the heading line made of
`## `, the range label and ONE TRAILING SPACE, an empty line, and one bullet per commit of
the group in commit order, each bullet being `toMarkdown` of the commit with the report's
origin URL. -/
theorem getMarkdown_document (r : Report) (h : r.Markdown = []) :
    r.getMarkdown.1 = "# Changelog\n".toList ++
      (r.ChangeLog.map (fun g =>
        "\n".toList ++ ("## ".toList ++ g.NameTags ++ " ".toList) ++ "\n".toList ++
          "\n".toList ++ (g.Commits.map (fun c => c.toMarkdown r.originURL)).flatten)).flatten := by
  rw [getMarkdown_fresh r h]
  simp

theorem getMarkdown_document_witness :
    scenarioReport.getMarkdown.1 =
      ("# Changelog\n\n## v1.0..v2.0 \n\n" ++
        "* [abc123](https://host/org/repo/commit/abc123def) add feature [Jane](mailto:jane@x.com)\n").toList := by
  have h := getMarkdown_document scenarioReport rfl
  rw [h]
  decide

/-- C3, counterexample: in the end-to-end scenario no line of the document is
`## v1.0..v2.0`; the heading line is `## v1.0..v2.0 ` with a trailing space. -/
theorem getMarkdown_heading_has_trailing_space :
    "## v1.0..v2.0".toList ∉ splitNL scenarioReport.getMarkdown.1 ∧
    "## v1.0..v2.0 ".toList ∈ splitNL scenarioReport.getMarkdown.1 := by
  decide

theorem getMarkdown_cached (r : Report) :
    r.getMarkdown.2.Markdown = r.getMarkdown.1 ∧ r.getMarkdown.1.length > 0 := by
  by_cases h : r.Markdown.length > 0
  · simp [Report.getMarkdown, h]
  · have h0 : r.Markdown = [] := by
      cases hm : r.Markdown with
      | nil => rfl
      | cons a l => rw [hm] at h; simp at h
    refine ⟨by simp [Report.getMarkdown, h], ?_⟩
    rw [getMarkdown_fresh r h0]
    simp

theorem getMarkdown_of_cached (r : Report) (h : r.Markdown.length > 0) :
    r.getMarkdown = (r.Markdown, r) := by
  simp [Report.getMarkdown, h]

theorem getMarkdown_second (r : Report) :
    r.getMarkdown.2.getMarkdown = (r.getMarkdown.1, r.getMarkdown.2) := by
  have h := getMarkdown_cached r
  have h1 : r.getMarkdown.2.Markdown.length > 0 := by rw [h.1]; exact h.2
  rw [getMarkdown_of_cached _ h1, h.1]

/-- C9: for every report, a second call of `getMarkdown` returns the same string as the
first and leaves the report as the first call left it, and the string returned by any
later call equals the one returned by the first call. -/
theorem getMarkdown_idempotent (r : Report) :
    r.getMarkdown.2.getMarkdown.1 = r.getMarkdown.1 ∧
    r.getMarkdown.2.getMarkdown.2 = r.getMarkdown.2 ∧
    ∀ n : Nat, (r.getMarkdownAgain n).1 = r.getMarkdown.1 := by
  refine ⟨by rw [getMarkdown_second], by rw [getMarkdown_second], ?_⟩
  intro n
  induction n generalizing r with
  | zero => rfl
  | succ n ih =>
    show (r.getMarkdown.2.getMarkdownAgain n).1 = r.getMarkdown.1
    rw [ih, getMarkdown_second]

/-! ## Theorems: literal and anchored patterns -/

theorem run_lits_append (s r : Str) (caps : List (Nat × Str)) :
    ∀ b : Bool, (Regex.lits s).run ⟨b, s ++ r, caps⟩ =
      [⟨if s = [] then b else false, r, caps⟩] := by
  induction s with
  | nil => intro b; simp [Regex.lits, Regex.run]
  | cons c cs ih =>
    intro b
    simp only [Regex.lits, Regex.run, List.cons_append, if_true, List.flatMap_cons,
      List.flatMap_nil, List.append_nil, ih false]
    simp

theorem run_lits_not (s : Str) (caps : List (Nat × Str)) :
    ∀ (b : Bool) (t : Str), ¬ s <+: t → (Regex.lits s).run ⟨b, t, caps⟩ = [] := by
  induction s with
  | nil => intro b t h; exact absurd (List.nil_prefix) h
  | cons c cs ih =>
    intro b t h
    cases t with
    | nil => simp [Regex.lits, Regex.run]
    | cons x xs =>
      by_cases hx : x = c
      · subst hx
        have h2 : ¬ cs <+: xs := fun e => h ((List.cons_prefix_cons).2 ⟨rfl, e⟩)
        simp [Regex.lits, Regex.run, ih false xs h2]
      · simp [Regex.lits, Regex.run, hx]

/-- A pattern that matches exactly when the unread text is the non-empty text `s` (a
literal anchored at the end) is found at the end of the text or not at all. -/
theorem searchFrom_at_end (re : Regex) (s : Str) (hs : s ≠ [])
    (hrun : ∀ (b : Bool) (t : Str),
      re.run ⟨b, t, []⟩ = if t = s then [⟨false, [], []⟩] else []) :
    ∀ (t : Str) (pos : Nat), re.searchFrom pos t =
      if s <:+ t then some (pos + (t.length - s.length), pos + t.length, []) else none := by
  intro t
  induction t with
  | nil =>
    intro pos
    have h1 : ¬ (([] : Str) = s) := fun e => hs e.symm
    have h2 : ¬ s <:+ ([] : Str) := fun e => hs (List.suffix_nil.1 e)
    simp [Regex.searchFrom, hrun, h1, h2]
  | cons c cs ih =>
    intro pos
    by_cases h : c :: cs = s
    · have h3 : s <:+ c :: cs := by rw [h]
      simp only [Regex.searchFrom, hrun, h, if_true, List.head?_cons, if_pos h3]
      rw [← h]; simp
    · rw [Regex.searchFrom, hrun, if_neg h]
      simp only [List.head?_nil, ih (pos + 1)]
      by_cases h4 : s <:+ cs
      · have h5 : s <:+ c :: cs := List.suffix_cons_iff.2 (Or.inr h4)
        have h6 := h4.length_le
        rw [if_pos h4, if_pos h5]
        simp only [List.length_cons, Option.some.injEq, Prod.mk.injEq, and_true]
        omega
      · have h5 : ¬ s <:+ c :: cs := fun e =>
          (List.suffix_cons_iff.1 e).elim (fun e1 => h e1.symm) h4
        rw [if_neg h4, if_neg h5]

theorem replaceAllString_at_end (re : Regex) (s repl : Str) (hs : s ≠ [])
    (hrun : ∀ (b : Bool) (t : Str),
      re.run ⟨b, t, []⟩ = if t = s then [⟨false, [], []⟩] else []) (src : Str) :
    re.replaceAllString src repl =
      if s <:+ src then src.take (src.length - s.length) ++ repl else src := by
  have hsearch := searchFrom_at_end re s hs hrun
  have hpos : 0 < s.length := List.length_pos.2 hs
  by_cases h : s <:+ src
  · have hle := h.length_le
    have h1 : src.length > 0 ∨ src.length - s.length = 0 := by left; omega
    have h2 : ¬ (0 + 1 > src.length) := by omega
    have h3 : ¬ s <:+ ([] : Str) := fun e => hs (List.suffix_nil.1 e)
    simp [Regex.replaceAllString, Regex.replaceAllLoop, Regex.doExecute, hsearch, h, h1, h2,
      h3]
  · simp [Regex.replaceAllString, Regex.replaceAllLoop, Regex.doExecute, hsearch, h]

theorem run_lits_eot (s : Str) (hs : s ≠ []) (b : Bool) (t : Str) :
    (Regex.cat (Regex.lits s) Regex.eot).run ⟨b, t, []⟩ =
      if t = s then [⟨false, [], []⟩] else [] := by
  by_cases hp : s <+: t
  · obtain ⟨r, rfl⟩ := hp
    cases r with
    | nil =>
      have h := run_lits_append s [] [] b
      rw [List.append_nil] at h
      simp [Regex.run, h, hs]
    | cons x xs => simp [Regex.run, run_lits_append, hs]
  · have hne : ¬ t = s := fun e => hp (by rw [e])
    simp [Regex.run, run_lits_not s [] b t hp, hne]

/-- A pattern anchored at the beginning of the text is not found from a later search
position. -/
theorem searchFrom_bot_later (a : Regex) :
    ∀ (t : Str) (pos : Nat), 0 < pos → (Regex.cat Regex.bot a).searchFrom pos t = none := by
  intro t
  induction t with
  | nil =>
    intro pos hp
    have h : (pos == 0) = false := by simp; omega
    simp [Regex.searchFrom, Regex.run, h]
  | cons c cs ih =>
    intro pos hp
    have h : (pos == 0) = false := by simp; omega
    simp [Regex.searchFrom, Regex.run, h, ih (pos + 1) (by omega)]

theorem replaceAllString_at_start (s repl : Str) (hs : s ≠ []) (src : Str) :
    (Regex.cat Regex.bot (Regex.lits s)).replaceAllString src repl =
      if s <+: src then repl ++ src.drop s.length else src := by
  have hpos : 0 < s.length := List.length_pos.2 hs
  by_cases h : s <+: src
  · obtain ⟨r, rfl⟩ := h
    have h0 : (Regex.cat Regex.bot (Regex.lits s)).searchFrom 0 (s ++ r) =
        some (0, s.length, []) := by
      cases hsr : s ++ r with
      | nil => simp [hs] at hsr
      | cons c cs =>
        rw [Regex.searchFrom, ← hsr]
        simp [Regex.run, run_lits_append, hs]
    have h1 : ¬ (0 + 1 > s.length) := by omega
    have h2 : s.length > 0 ∨ 0 = 0 := Or.inl hpos
    simp [Regex.replaceAllString, Regex.replaceAllLoop, Regex.doExecute, h0, h1,
      searchFrom_bot_later _ _ s.length hpos]
  · have h0 : (Regex.cat Regex.bot (Regex.lits s)).searchFrom 0 src = none := by
      cases src with
      | nil => simp [Regex.searchFrom, Regex.run, run_lits_not s [] _ _ h]
      | cons c cs =>
        simp [Regex.searchFrom, Regex.run, run_lits_not s [] _ _ h,
          searchFrom_bot_later _ cs 1 (by omega)]
    simp [Regex.replaceAllString, Regex.replaceAllLoop, Regex.doExecute, h0, h]

/-! ## Theorems: origin URL -/

/-- What `fetchProjectURL` computes: every colon becomes a slash, then a trailing
`.git` plus newline becomes a slash, then a leading `git@` becomes `https://`. -/
theorem fetchProjectURL_eq (s : Str) :
    fetchProjectURL s = replaceLeadingGitAt (replaceTrailingDotGit (replaceEveryColon s)) := by
  have hc : "/".toList = ['/'] := rfl
  have h5 : (".git\n".toList).length = 5 := rfl
  have h4 : ("git@".toList).length = 4 := rfl
  unfold fetchProjectURL replaceLeadingGitAt replaceTrailingDotGit replaceEveryColon
  simp only [colonRe, dotGitRe, gitAtRe, replaceAllString_lit,
    replaceAllString_at_end _ ".git\n".toList _ (by decide) (run_lits_eot _ (by decide)),
    replaceAllString_at_start "git@".toList _ (by decide), hc, flatMap_single_eq_map, h5, h4]

theorem replaceEveryColon_of_not_mem : ∀ s : Str, ':' ∉ s → replaceEveryColon s = s := by
  intro s
  induction s with
  | nil => intro _; rfl
  | cons c cs ih =>
    intro h
    have hc : c ≠ ':' := fun e => h (by simp [e])
    have hcs : ':' ∉ cs := fun e => h (by simp [e])
    have := ih hcs
    unfold replaceEveryColon at this ⊢
    simp [hc, this]

/-- C4: for an SSH remote `git@host:path.git` plus newline, where host and path hold no
colon, `fetchProjectURL` returns `https://host/path/`; in particular
`git@github.com:org/repo.git` plus newline gives `https://github.com/org/repo/`. -/
theorem fetchProjectURL_ssh (host path : Str) (hh : ':' ∉ host) (hp : ':' ∉ path) :
    fetchProjectURL ("git@".toList ++ host ++ ":".toList ++ path ++ ".git\n".toList) =
      "https://".toList ++ host ++ "/".toList ++ path ++ "/".toList := by
  rw [fetchProjectURL_eq]
  have e1 : replaceEveryColon
      ("git@".toList ++ host ++ ":".toList ++ path ++ ".git\n".toList) =
      ("git@".toList ++ (host ++ ("/".toList ++ path))) ++ ".git\n".toList := by
    have h1 := replaceEveryColon_of_not_mem host hh
    have h2 := replaceEveryColon_of_not_mem path hp
    unfold replaceEveryColon at h1 h2 ⊢
    simp only [List.map_append, h1, h2, List.append_assoc]
    rfl
  have e2 : ∀ t : Str, replaceTrailingDotGit (t ++ ".git\n".toList) = t ++ "/".toList := by
    intro t
    unfold replaceTrailingDotGit
    rw [if_pos (List.suffix_append t _)]
    have : (t ++ ".git\n".toList).length - 5 = t.length := by simp
    rw [this, List.take_left']
    rfl
  have e3 : ∀ t : Str, replaceLeadingGitAt ("git@".toList ++ t) = "https://".toList ++ t := by
    intro t
    unfold replaceLeadingGitAt
    rw [if_pos (List.prefix_append _ t)]
    rfl
  rw [e1, e2, List.append_assoc, e3]
  simp only [List.append_assoc]

theorem fetchProjectURL_ssh_witness :
    fetchProjectURL ("git@".toList ++ "github.com".toList ++ ":".toList ++ "org/repo".toList ++
      ".git\n".toList) =
      "https://".toList ++ "github.com".toList ++ "/".toList ++ "org/repo".toList ++ "/".toList :=
  fetchProjectURL_ssh "github.com".toList "org/repo".toList (by decide) (by decide)

/-- C5 (as the code has it): `fetchProjectURL` applies, in this order, (a) EVERY colon
becomes a slash, (b) a trailing `.git` plus newline becomes a single slash, (c) a leading
`git@` becomes `https://`. -/
theorem fetchProjectURL_steps (s : Str) :
    fetchProjectURL s =
      replaceLeadingGitAt (replaceTrailingDotGit (replaceEveryColon s)) :=
  fetchProjectURL_eq s

/-- C5, counterexample: on a remote with two colons the code replaces both, while the
three steps as the specification words them keep the second colon. -/
theorem fetchProjectURL_replaces_later_colons :
    fetchProjectURL "ssh://git@host:2222/org/repo.git\n".toList =
      "ssh///git@host/2222/org/repo/".toList ∧
    normalizeBySpec "ssh://git@host:2222/org/repo.git\n".toList =
      "ssh///git@host:2222/org/repo/".toList ∧
    fetchProjectURL "ssh://git@host:2222/org/repo.git\n".toList ≠
      normalizeBySpec "ssh://git@host:2222/org/repo.git\n".toList := by
  decide

/-! ## Theorems: the matcher does not read the closed groups -/

theorem starLoop_withCaps (body : Thread → List Thread)
    (hbody : ∀ (b : Bool) (s : Str) (caps : List (Nat × Str)),
      body ⟨b, s, caps⟩ = (body ⟨b, s, []⟩).map (Thread.withCaps caps)) :
    ∀ (n : Nat) (b : Bool) (s : Str) (caps : List (Nat × Str)),
      starLoop body n ⟨b, s, caps⟩ = (starLoop body n ⟨b, s, []⟩).map (Thread.withCaps caps) := by
  intro n
  induction n with
  | zero => intro b s caps; simp [starLoop, Thread.withCaps]
  | succ n ih =>
    intro b s caps
    simp only [starLoop, List.map_append, List.map_cons, List.map_nil]
    rw [hbody b s caps, List.filter_map, List.flatMap_map, List.map_flatMap]
    congr 1
    · apply List.flatMap_congr
      intro u _
      obtain ⟨ub, us, uc⟩ := u
      simp only [Thread.withCaps]
      rw [ih ub us (uc ++ caps), ih ub us uc, List.map_map]
      congr 1
      funext v
      simp [Thread.withCaps, List.append_assoc]

theorem run_withCaps (re : Regex) :
    ∀ (b : Bool) (s : Str) (caps : List (Nat × Str)),
      re.run ⟨b, s, caps⟩ = (re.run ⟨b, s, []⟩).map (Thread.withCaps caps) := by
  induction re with
  | empty => intro b s caps; simp [Regex.run, Thread.withCaps]
  | lit c =>
    intro b s caps
    cases s with
    | nil => simp [Regex.run]
    | cons x xs => by_cases h : x = c <;> simp [Regex.run, h, Thread.withCaps]
  | dot =>
    intro b s caps
    cases s with
    | nil => simp [Regex.run]
    | cons x xs => by_cases h : x = '\n' <;> simp [Regex.run, h, Thread.withCaps]
  | cls p =>
    intro b s caps
    cases s with
    | nil => simp [Regex.run]
    | cons x xs => cases h : p x <;> simp [Regex.run, h, Thread.withCaps]
  | cat a c iha ihc =>
    intro b s caps
    simp only [Regex.run]
    rw [iha b s caps, List.flatMap_map, List.map_flatMap]
    apply List.flatMap_congr
    intro u _
    obtain ⟨ub, us, uc⟩ := u
    simp only [Thread.withCaps]
    rw [ihc ub us (uc ++ caps), ihc ub us uc, List.map_map]
    congr 1
    funext v
    simp [Thread.withCaps, List.append_assoc]
  | alt a c iha ihc =>
    intro b s caps
    simp only [Regex.run, List.map_append]
    rw [iha b s caps, ihc b s caps]
  | star a iha =>
    intro b s caps
    simp only [Regex.run]
    exact starLoop_withCaps _ iha _ b s caps
  | cap n a iha =>
    intro b s caps
    simp only [Regex.run]
    rw [iha b s caps, List.map_map, List.map_map]
    congr 1
  | bot =>
    intro b s caps
    cases b <;> simp [Regex.run, Thread.withCaps]
  | eot =>
    intro b s caps
    cases s <;> simp [Regex.run, Thread.withCaps]

/-! ## Theorems: the tag pattern on one line -/

theorem starLoop_dot (caps : List (Nat × Str)) :
    ∀ (s : Str) (n : Nat) (b : Bool), '\n' ∉ s → s.length ≤ n →
      starLoop (fun u => Regex.dot.run u) n ⟨b, s, caps⟩ = dotThreads caps b s := by
  intro s
  induction s with
  | nil =>
    intro n b _ _
    cases n <;> simp [starLoop, Regex.run, dotThreads]
  | cons c cs ih =>
    intro n b hnl hn
    have hc : c ≠ '\n' := fun e => hnl (by simp [e])
    have hcs : '\n' ∉ cs := fun e => hnl (by simp [e])
    cases n with
    | zero => simp at hn
    | succ m =>
      have hm : cs.length ≤ m := by simpa using hn
      have hb : Regex.dot.run ⟨b, c :: cs, caps⟩ = [⟨false, cs, caps⟩] := by
        simp [Regex.run, hc]
      simp only [starLoop, hb]
      simp [dotThreads, ih m false hcs hm]

theorem run_star_dot (caps : List (Nat × Str)) (b : Bool) (s : Str) (h : '\n' ∉ s) :
    (Regex.star Regex.dot).run ⟨b, s, caps⟩ = dotThreads caps b s := by
  simp only [Regex.run]
  exact starLoop_dot caps s s.length b h (le_refl _)

/-- The first success behind `.*` is the success at the shortest end piece. -/
theorem head_flatMap_dotThreads {β : Type} (k : Thread → List Thread) (g : Thread → β)
    (f : Str → Option β) (caps : List (Nat × Str))
    (hk : ∀ (b : Bool) (t : Str), '\n' ∉ t → ((k ⟨b, t, caps⟩).head?).map g = f t) :
    ∀ (s : Str) (b : Bool), '\n' ∉ s →
      (((dotThreads caps b s).flatMap k).head?).map g = rightmost f s := by
  intro s
  induction s with
  | nil => intro b h; simp [dotThreads, rightmost, hk b [] h]
  | cons c cs ih =>
    intro b h
    have hcs : '\n' ∉ cs := fun e => h (by simp [e])
    have h1 := ih false hcs
    have h2 := hk b (c :: cs) h
    simp only [dotThreads, rightmost, List.flatMap_append, List.flatMap_cons, List.flatMap_nil,
      List.append_nil, List.head?_append]
    rw [← h1, ← h2]
    cases ((dotThreads caps false cs).flatMap k).head? <;> simp

theorem tagRe_tail_two (P : Regex) (b : Bool) (t : Str) (caps : List (Nat × Str)) :
    (((Regex.cat (Regex.lits "tag:".toList)
        (Regex.cat (Regex.cls isSpace) (Regex.cap 2 P))).run ⟨b, t, caps⟩).head?).map
      (fun u => capture u.caps 2) = tagAt P t := by
  rcases t with _ | ⟨c1, _ | ⟨c2, _ | ⟨c3, _ | ⟨c4, _ | ⟨w, s⟩⟩⟩⟩⟩
  · simp [Regex.run, Regex.lits, tagAt]
  · by_cases h1 : c1 = 't' <;> simp [Regex.run, Regex.lits, tagAt, h1]
  · by_cases h1 : c1 = 't' <;> by_cases h2 : c2 = 'a' <;>
      simp [Regex.run, Regex.lits, tagAt, h1, h2]
  · by_cases h1 : c1 = 't' <;> by_cases h2 : c2 = 'a' <;> by_cases h3 : c3 = 'g' <;>
      simp [Regex.run, Regex.lits, tagAt, h1, h2, h3]
  · by_cases h1 : c1 = 't' <;> by_cases h2 : c2 = 'a' <;> by_cases h3 : c3 = 'g' <;>
      by_cases h4 : c4 = ':' <;> simp [Regex.run, Regex.lits, tagAt, h1, h2, h3, h4]
  · by_cases h1 : c1 = 't' <;> by_cases h2 : c2 = 'a' <;> by_cases h3 : c3 = 'g' <;>
      by_cases h4 : c4 = ':' <;> cases h5 : isSpace w <;>
      simp [Regex.run, Regex.lits, tagAt, h1, h2, h3, h4, h5]
    rw [run_withCaps P false s caps]
    simp [patternAt, List.head?_map, Option.map_map, Function.comp_def, capture,
      Thread.withCaps]

theorem run_cat (a c : Regex) (t : Thread) :
    (Regex.cat a c).run t = (a.run t).flatMap (fun u => c.run u) := by
  simp [Regex.run]

theorem run_cap (n : Nat) (a : Regex) (t : Thread) :
    (Regex.cap n a).run t = (a.run t).map (fun u =>
      ⟨u.bos, u.rest, (n, t.rest.take (t.rest.length - u.rest.length)) :: u.caps⟩) := by
  simp [Regex.run]

theorem run_cls (p : Char → Bool) (b : Bool) (s : Str) (caps : List (Nat × Str)) :
    (Regex.cls p).run ⟨b, s, caps⟩ =
      match s with
      | x :: xs => if p x then [⟨false, xs, caps⟩] else []
      | [] => [] := by
  cases s <;> simp [Regex.run]

theorem tagRe_tail_one (P : Regex) (b : Bool) (t : Str) (caps : List (Nat × Str))
    (h : '\n' ∉ t) :
    (((Regex.cat (Regex.lit '@') (Regex.cat (Regex.cls isSpace)
        (Regex.cat (Regex.star Regex.dot) (Regex.cat (Regex.lits "tag:".toList)
          (Regex.cat (Regex.cls isSpace) (Regex.cap 2 P)))))).run ⟨b, t, caps⟩).head?).map
      (fun u => capture u.caps 2) =
      match t with
      | c :: w2 :: r =>
        if c = '@' ∧ isSpace w2 = true then rightmost (tagAt P) r else none
      | _ => none := by
  rcases t with _ | ⟨c, _ | ⟨w2, r⟩⟩
  · simp [run_cat, run_lit]
  · by_cases h1 : c = '@' <;> simp [run_cat, run_lit, run_cls, h1]
  · have hr : '\n' ∉ r := fun e => h (by simp [e])
    by_cases h1 : c = '@'
    · cases h2 : isSpace w2
      · simp [run_cat, run_lit, run_cls, h1, h2]
      · rw [run_cat, run_lit]
        simp only [h1, if_true, List.flatMap_cons, List.flatMap_nil, List.append_nil]
        rw [run_cat, run_cls]
        simp only [h2, if_true, List.flatMap_cons, List.flatMap_nil, List.append_nil]
        rw [run_cat, run_star_dot caps false r hr]
        simp only [and_self, if_true]
        exact head_flatMap_dotThreads _ _ _ caps
          (fun b' t' _ => tagRe_tail_two P b' t' caps) r false hr
    · simp [run_cat, run_lit, h1]

/-- On a line without newline, the first way the tag pattern matches at the start of
the line closes group 2 on the text that `tagAfterAt` finds, rightmost first. -/
theorem validTagRe_run (P : Regex) (b : Bool) (s : Str) (h : '\n' ∉ s) :
    ((((validTagRe P).run ⟨b, s, []⟩).head?).map (fun u => capture u.caps 2)) =
      rightmost (tagAfterAt P) s := by
  unfold validTagRe
  rw [run_cat, run_cap, run_cat, run_star_dot [] b s h, List.map_flatMap, List.flatMap_assoc]
  apply head_flatMap_dotThreads _ _ _ [] _ s b h
  intro b' t ht
  rcases t with _ | ⟨w1, r⟩
  · simp [run_cls, tagAfterAt]
  · have hr : '\n' ∉ r := fun e => ht (by simp [e])
    cases h1 : isSpace w1
    · rcases r with _ | ⟨c, _ | ⟨w2, r2⟩⟩ <;> simp [run_cls, tagAfterAt, h1]
    · rw [run_cls]
      simp only [h1, if_true, List.map_cons, List.map_nil, List.flatMap_cons, List.flatMap_nil,
        List.append_nil]
      rw [tagRe_tail_one P false r _ hr]
      rcases r with _ | ⟨c, _ | ⟨w2, r2⟩⟩ <;> simp [tagAfterAt, h1]

theorem searchFrom_validTagRe (P : Regex) :
    ∀ (s : Str) (pos : Nat), '\n' ∉ s →
      (((validTagRe P).searchFrom pos s).map (fun m => capture m.2.2 2)) =
        rightmost (tagAfterAt P) s := by
  intro s
  induction s with
  | nil =>
    intro pos h
    have hA := validTagRe_run P (pos == 0) [] h
    rw [Regex.searchFrom]
    cases hh : ((validTagRe P).run ⟨pos == 0, [], []⟩).head? with
    | none => rw [hh] at hA; simpa using hA
    | some t => rw [hh] at hA; simpa using hA
  | cons c cs ih =>
    intro pos h
    have hcs : '\n' ∉ cs := fun e => h (by simp [e])
    have hA := validTagRe_run P (pos == 0) (c :: cs) h
    rw [Regex.searchFrom]
    cases hh : ((validTagRe P).run ⟨pos == 0, c :: cs, []⟩).head? with
    | none =>
      rw [hh] at hA
      simp only [ih (pos + 1) hcs]
      rw [rightmost] at hA
      cases hr : rightmost (tagAfterAt P) cs with
      | none =>
        rw [hr] at hA
        rw [rightmost, hr]
        simpa using hA
      | some x => rw [hr] at hA; simp at hA
    | some t => rw [hh] at hA; simpa using hA

theorem numSubexp_validTagRe (P : Regex) : 2 ≤ (validTagRe P).numSubexp := by
  simp [validTagRe, Regex.numSubexp]

theorem submatches_two (re : Regex) (s : Str) (a0 a1 : Nat) (caps : List (Nat × Str))
    (h : 2 ≤ re.numSubexp) :
    (re.submatches s a0 a1 caps).length > 2 ∧
      (re.submatches s a0 a1 caps).getD 2 [] = capture caps 2 := by
  have h1 : 1 < re.numSubexp := h
  refine ⟨by simp [Regex.submatches]; omega, ?_⟩
  simp [Regex.submatches, List.getD_eq_getElem?_getD, List.getElem?_map,
    List.getElem?_range h1]

/-- What the body of the loop of `fetchTags` appends for one line without newline. -/
theorem fetchTags_step (P : Regex) (tags : List Str) (line : Str) (h : '\n' ∉ line) :
    (if ((validTagRe P).findAllStringSubmatch line).length > 0 ∧
        (((validTagRe P).findAllStringSubmatch line).getD 0 []).length > 2 then
      tags ++ [((((validTagRe P).findAllStringSubmatch line).getD 0 []).getD 2 []).filter
        (fun c => c ≠ ',')]
    else tags) = tags ++ (tagOfLine P line).toList := by
  have hS := searchFrom_validTagRe P line 0 h
  unfold tagOfLine
  rw [← hS]
  cases hh : (validTagRe P).searchFrom 0 line with
  | none =>
    simp [Regex.findAllStringSubmatch, Regex.allMatches, Regex.doExecute, hh]
  | some m =>
    obtain ⟨a0, a1, caps⟩ := m
    have h2 := submatches_two (validTagRe P) line a0 a1 caps (numSubexp_validTagRe P)
    have hm : ∃ more, (validTagRe P).findAllStringSubmatch line =
        (validTagRe P).submatches line a0 a1 caps :: more := by
      simp [Regex.findAllStringSubmatch, Regex.allMatches, Regex.doExecute, hh]
    obtain ⟨more, hm⟩ := hm
    rw [hm]
    simp only [List.getD_cons_zero, List.length_cons]
    rw [if_pos ⟨by omega, h2.1⟩, h2.2]
    simp

theorem splitNL_no_newline : ∀ (s : Str) (l : Str), l ∈ splitNL s → '\n' ∉ l := by
  intro s
  induction s with
  | nil => intro l hl; simp [splitNL] at hl; simp [hl]
  | cons c cs ih =>
    intro l hl
    by_cases hc : c = '\n'
    · simp only [splitNL, hc, if_true, List.mem_cons] at hl
      rcases hl with rfl | hl
      · simp
      · exact ih l hl
    · simp only [splitNL, hc, if_false] at hl
      cases hs : splitNL cs with
      | nil =>
        rw [hs] at hl
        simp at hl
        simp [hl, Ne.symm hc]
      | cons l0 ls =>
        rw [hs] at hl ih
        simp only [List.mem_cons] at hl
        rcases hl with rfl | hl
        · have := ih l0 (by simp)
          simp [this, Ne.symm hc]
        · exact ih l (by simp [hl])

theorem fetchTags_foldl (P : Regex) :
    ∀ (ls : List Str) (acc : List Str), (∀ l ∈ ls, '\n' ∉ l) →
      ls.foldl (fun tags tag =>
        if ((validTagRe P).findAllStringSubmatch tag).length > 0 ∧
            (((validTagRe P).findAllStringSubmatch tag).getD 0 []).length > 2 then
          tags ++ [((((validTagRe P).findAllStringSubmatch tag).getD 0 []).getD 2 []).filter
            (fun c => c ≠ ',')]
        else tags) acc = acc ++ ls.filterMap (tagOfLine P) := by
  intro ls
  induction ls with
  | nil => intro acc _; simp
  | cons l ls ih =>
    intro acc h
    rw [List.foldl_cons, fetchTags_step P acc l (h l (by simp)),
      ih _ (fun x hx => h x (by simp [hx]))]
    cases ht : tagOfLine P l <;> simp [List.filterMap_cons, ht]

/-- The tags `fetchTags` returns: for each line in order, what `tagOfLine` finds. -/
theorem fetchTags_eq (P : Regex) (out : Str) :
    fetchTags P out = (splitNL out).filterMap (tagOfLine P) := by
  unfold fetchTags
  simp only []
  rw [fetchTags_foldl P (splitNL out) [] (splitNL_no_newline out)]
  simp

theorem rightmost_some {α : Type} (f : Str → Option α) :
    ∀ (s : Str) (x : α), rightmost f s = some x → ∃ t, t <:+ s ∧ f t = some x := by
  intro s
  induction s with
  | nil => intro x h; exact ⟨[], List.suffix_refl _, by simpa [rightmost] using h⟩
  | cons c cs ih =>
    intro x h
    rw [rightmost] at h
    cases hr : rightmost f cs with
    | none =>
      rw [hr] at h
      exact ⟨c :: cs, List.suffix_refl _, by simpa using h⟩
    | some y =>
      rw [hr] at h
      obtain ⟨t, ht, hf⟩ := ih y hr
      refine ⟨t, List.suffix_cons_iff.2 (Or.inr ht), ?_⟩
      rw [hf]
      simpa using h

theorem tagAt_some (P : Regex) (t : Str) (x : Str) (h : tagAt P t = some x) :
    "tag:".toList <+: t := by
  rcases t with _ | ⟨c1, _ | ⟨c2, _ | ⟨c3, _ | ⟨c4, _ | ⟨w, s⟩⟩⟩⟩⟩ <;>
    simp [tagAt] at h
  obtain ⟨⟨h1, h2, h3, h4, _⟩, _⟩ := h
  subst h1 h2 h3 h4
  exact ⟨w :: s, rfl⟩

theorem tagAfterAt_some (P : Regex) (t : Str) (x : Str) (h : tagAfterAt P t = some x) :
    ∃ r, r <:+ t ∧ rightmost (tagAt P) r = some x := by
  rcases t with _ | ⟨w1, _ | ⟨c, _ | ⟨w2, s⟩⟩⟩ <;> simp [tagAfterAt] at h
  refine ⟨s, ?_, h.2⟩
  exact ⟨[w1, c, w2], rfl⟩

theorem tagOfLine_none (P : Regex) (line : Str) (h : ¬ "tag:".toList <:+: line) :
    tagOfLine P line = none := by
  cases hr : rightmost (tagAfterAt P) line with
  | none => simp [tagOfLine, hr]
  | some x =>
    exfalso
    obtain ⟨t, ht, hf⟩ := rightmost_some _ line x hr
    obtain ⟨r, hrt, hx⟩ := tagAfterAt_some P t x hf
    obtain ⟨t2, ht2, hf2⟩ := rightmost_some _ r x hx
    have hp := tagAt_some P t2 x hf2
    exact h (hp.isInfix.trans ((ht2.trans (hrt.trans ht)).isInfix))

theorem splitNL_of_no_newline : ∀ s : Str, '\n' ∉ s → splitNL s = [s] := by
  intro s
  induction s with
  | nil => intro _; rfl
  | cons c cs ih =>
    intro h
    have hc : c ≠ '\n' := fun e => h (by simp [e])
    have hcs : '\n' ∉ cs := fun e => h (by simp [e])
    simp [splitNL, hc, ih hcs]

/-- C7 (as the code has it): for every release pattern and every tag log, `fetchTags`
returns, in the order of the lines, AT MOST ONE entry per line, the one `tagOfLine`
describes: the text the release pattern takes at the last `tag:` of the line at which
it matches, with every comma removed.  No returned entry holds a comma, a line
contributes what `tagOfLine` finds and nothing else, and a line without `tag:`
contributes nothing. -/
theorem fetchTags_one_per_line (P : Regex) (out : Str) :
    fetchTags P out = (splitNL out).filterMap (tagOfLine P) ∧
    (∀ t ∈ fetchTags P out, ',' ∉ t) ∧
    (∀ line : Str, '\n' ∉ line → fetchTags P line = (tagOfLine P line).toList) ∧
    (∀ line : Str, '\n' ∉ line → ¬ "tag:".toList <:+: line → fetchTags P line = []) := by
  refine ⟨fetchTags_eq P out, ?_, ?_, ?_⟩
  · intro t ht
    rw [fetchTags_eq, List.mem_filterMap] at ht
    obtain ⟨l, _, hl⟩ := ht
    unfold tagOfLine at hl
    cases hr : rightmost (tagAfterAt P) l with
    | none => rw [hr] at hl; simp at hl
    | some x =>
      rw [hr] at hl
      simp only [Option.map_some', Option.some.injEq] at hl
      rw [← hl]
      simp [List.mem_filter]
  · intro line h
    rw [fetchTags_eq, splitNL_of_no_newline line h]
    cases ht : tagOfLine P line <;> simp [List.filterMap_cons, ht]
  · intro line h hno
    rw [fetchTags_eq, splitNL_of_no_newline line h]
    simp [tagOfLine_none P line hno]

theorem fetchTags_one_per_line_witness :
    fetchTags mainReleasePattern twoTagLine = (tagOfLine mainReleasePattern twoTagLine).toList ∧
    fetchTags mainReleasePattern noTagLine = [] :=
  ⟨(fetchTags_one_per_line mainReleasePattern []).2.2.1 twoTagLine (by decide),
   (fetchTags_one_per_line mainReleasePattern []).2.2.2 noTagLine (by decide) (by decide)⟩

set_option maxRecDepth 100000 in
/-- C7, counterexample: a line whose commit carries the release tags `v1.1` and `v1.0`
contributes `v1.0` only, although the release pattern of `main` matches at `v1.1`. -/
theorem fetchTags_drops_second_tag :
    fetchTags mainReleasePattern twoTagLine = ["v1.0".toList] ∧
    patternAt mainReleasePattern "v1.1, tag: v1.0)\"".toList = some "v1.1,".toList ∧
    "v1.1".toList ∉ fetchTags mainReleasePattern twoTagLine := by
  decide

/-! ## Theorems: commit extraction -/

set_option maxRecDepth 1000000 in
theorem fetchChanges_sample :
    fetchChanges sampleGit mainReleasePattern =
      ⟨["v2.0..v3.0".toList, "v1.0..v2.0".toList],
        some [⟨"v2.0..v3.0".toList, [commitC, commitB]⟩, ⟨"v1.0..v2.0".toList, [commitC]⟩]⟩ := by
  decide

set_option maxRecDepth 1000000 in
theorem commitsOf_sample :
    commitsOf (sampleGit.rangeLog "v2.0..v3.0".toList) = some [commitA, commitB] ∧
    commitsOf (sampleGit.rangeLog "v1.0..v2.0".toList) = some [commitC] := by
  decide

/-- C6, the code at the failing input: with two commits in the range `v2.0..v3.0` and one
commit in the later range `v1.0..v2.0`, the group of the FIRST range ends up with the
commit of the second range in its first place, although the log output of the first
range decodes to its own two commits. -/
theorem fetchChanges_overwrites_earlier_group :
    (fetchChanges sampleGit mainReleasePattern).result =
      some [⟨"v2.0..v3.0".toList, [commitC, commitB]⟩, ⟨"v1.0..v2.0".toList, [commitC]⟩] ∧
    commitsOf (sampleGit.rangeLog "v2.0..v3.0".toList) = some [commitA, commitB] ∧
    commitsOf (sampleGit.rangeLog "v1.0..v2.0".toList) = some [commitC] := by
  rw [fetchChanges_sample]
  exact ⟨rfl, commitsOf_sample⟩

theorem buildDiffs_few (tags : List Str) (h : tags.length ≤ 1) : buildDiffs tags = [] := by
  rw [buildDiffs_eq]
  have h0 : tags.length - 1 = 0 := by omega
  rw [h0]
  rfl

theorem fetchTags_nil (P : Regex) : fetchTags P [] = [] := by
  rw [fetchTags_eq]
  simp [splitNL, tagOfLine, rightmost, tagAfterAt]

/-- C10: when `fetchTags` finds at most one tag (as it does when the tag log is empty,
the output of a failed command), `fetchChanges` returns an empty change log without
passing any range to `git log` and without panic, and `getMarkdown` on the report that
`buildReport` returns is the heading line `# Changelog` alone. -/
theorem fetchChanges_few_tags (git : Git) (P : Regex) :
    fetchTags P [] = [] ∧
    ((fetchTags P git.tagLog).length ≤ 1 →
      fetchChanges git P = ⟨[], some []⟩ ∧
      (buildReport git P).map (fun r => (r.ChangeLog, r.getMarkdown.1)) =
        some ([], "# Changelog\n".toList)) := by
  refine ⟨fetchTags_nil P, ?_⟩
  intro h
  have h1 : fetchChanges git P = ⟨[], some []⟩ := by
    simp [fetchChanges, buildDiffs_few _ h, changesLoop]
  refine ⟨h1, ?_⟩
  simp [buildReport, h1, Report.getMarkdown]

set_option maxRecDepth 100000 in
theorem fetchChanges_few_tags_witness :
    fetchChanges oneTagGit mainReleasePattern = ⟨[], some []⟩ ∧
    (buildReport oneTagGit mainReleasePattern).map (fun r => (r.ChangeLog, r.getMarkdown.1)) =
      some ([], "# Changelog\n".toList) :=
  (fetchChanges_few_tags oneTagGit mainReleasePattern).2 (by decide)

/-! ## Theorems: scanning what `json.Marshal` writes -/

theorem hexVal_hexDigit (n : Nat) (h : n < 16) : hexVal (hexDigit n) = some n := by
  interval_cases n <;> decide

theorem tokenize_u00 (acc t : Str) (a b : Nat) (ha : a < 16) (hb : b < 16) :
    tokenize (.inStr .normal acc) ('\\' :: 'u' :: '0' :: '0' :: hexDigit a :: hexDigit b :: t) =
      tokenize (.inStr .normal (acc ++ [Char.ofNat (a * 16 + b)])) t := by
  have h0 : hexVal '0' = some 0 := by decide
  have hs : ¬ (0xD800 ≤ a * 16 + b ∧ a * 16 + b < 0xE000) := by omega
  have hbs : stepNormal '\\' = .next [] .esc := by simp [stepNormal]
  have hu : stepEsc 'u' = .next [] (.hex 4 0) := by simp [stepEsc]
  simp [tokenize, unquoteStep, hbs, hu, h0, hexVal_hexDigit a ha, hexVal_hexDigit b hb,
    finishRune, hs]

theorem tokenize_escapeChar (c : Char) (acc t : Str) :
    tokenize (.inStr .normal acc) (escapeChar c ++ t) =
      tokenize (.inStr .normal (acc ++ [c])) t := by
  have hbs : stepNormal '\\' = .next [] .esc := by simp [stepNormal]
  unfold escapeChar
  by_cases h1 : c = '"' ∨ c = '\\'
  · rw [if_pos h1]
    rcases h1 with rfl | rfl <;> simp [tokenize, unquoteStep, hbs, stepEsc]
  rw [if_neg h1]
  by_cases h2 : c = '\n'
  · subst h2; simp [tokenize, unquoteStep, hbs, stepEsc]
  rw [if_neg h2]
  by_cases h3 : c = '\r'
  · subst h3; simp [tokenize, unquoteStep, hbs, stepEsc]
  rw [if_neg h3]
  by_cases h4 : c = '\t'
  · subst h4; simp [tokenize, unquoteStep, hbs, stepEsc]
  rw [if_neg h4]
  by_cases h5 : c.toNat < 0x20 ∨ c = '<' ∨ c = '>' ∨ c = '&'
  · rw [if_pos h5]
    have hn : c.toNat < 256 := by
      rcases h5 with h | rfl | rfl | rfl
      · omega
      · decide
      · decide
      · decide
    have hc : Char.ofNat (c.toNat / 16 * 16 + c.toNat % 16) = c := by
      rw [Nat.div_add_mod']
      exact Char.ofNat_toNat c
    have := tokenize_u00 acc t (c.toNat / 16) (c.toNat % 16) (by omega) (by omega)
    rw [hc] at this
    simpa using this
  rw [if_neg h5]
  by_cases h6 : c = '\u2028' ∨ c = '\u2029'
  · rw [if_pos h6]
    have h0 : hexVal '0' = some 0 := by decide
    have hv2 : hexVal '2' = some 2 := by decide
    have hu : stepEsc 'u' = .next [] (.hex 4 0) := by simp [stepEsc]
    rcases h6 with rfl | rfl
    · have h8 : hexVal (hexDigit 8) = some 8 := by decide
      have e : Char.ofNat 8232 = '\u2028' := by decide
      simp [tokenize, unquoteStep, hbs, hu, h0, hv2, h8, finishRune, e]
    · have h9 : hexVal (hexDigit 9) = some 9 := by decide
      have e : Char.ofNat 8233 = '\u2029' := by decide
      simp [tokenize, unquoteStep, hbs, hu, h0, hv2, h9, finishRune, e]
  rw [if_neg h6]
  have hq : c ≠ '"' := fun e => h1 (Or.inl e)
  have hb : c ≠ '\\' := fun e => h1 (Or.inr e)
  have hctl : ¬ c.toNat < 0x20 := fun e => h5 (Or.inl e)
  simp [tokenize, unquoteStep, stepNormal, hq, hb, hctl]

theorem tokenize_string_body :
    ∀ (s acc t : Str), tokenize (.inStr .normal acc) (s.flatMap escapeChar ++ '"' :: t) =
      (tokenize .outside t).map (fun ts => Token.str (acc ++ s) :: ts) := by
  intro s
  induction s with
  | nil => intro acc t; simp [tokenize, unquoteStep, stepNormal]
  | cons c cs ih =>
    intro acc t
    rw [List.flatMap_cons, List.append_assoc, tokenize_escapeChar, ih]
    simp

theorem scansTo_quote (s : Str) : ScansTo (quote s) [Token.str s] := by
  intro t
  have h := tokenize_string_body s [] t
  simp only [quote, List.cons_append, List.append_assoc, List.singleton_append]
  rw [tokenize]
  simpa [isJsonSpace] using h

theorem scansTo_append {a b : Str} {x y : List Token} (ha : ScansTo a x) (hb : ScansTo b y) :
    ScansTo (a ++ b) (x ++ y) := by
  intro t
  rw [List.append_assoc, ha, hb, Option.map_map]
  congr 1
  funext ts
  simp

theorem scansTo_nil : ScansTo [] [] := by
  intro t
  simp

theorem scansTo_punct :
    ScansTo "[".toList [Token.lbrack] ∧ ScansTo "]".toList [Token.rbrack] ∧
    ScansTo "\x7b".toList [Token.lbrace] ∧ ScansTo "\x7d".toList [Token.rbrace] ∧
    ScansTo ",".toList [Token.comma] ∧ ScansTo ":".toList [Token.colon] := by
  refine ⟨?_, ?_, ?_, ?_, ?_, ?_⟩ <;> intro t <;> simp [tokenize, isJsonSpace]

theorem scansTo_cons_lbrack {a : Str} {x : List Token} (h : ScansTo a x) :
    ScansTo ('[' :: a) (Token.lbrack :: x) :=
  scansTo_append scansTo_punct.1 h

theorem scansTo_cons_lbrace {a : Str} {x : List Token} (h : ScansTo a x) :
    ScansTo ('\x7b' :: a) (Token.lbrace :: x) :=
  scansTo_append scansTo_punct.2.2.1 h

theorem scansTo_cons_comma {a : Str} {x : List Token} (h : ScansTo a x) :
    ScansTo (',' :: a) (Token.comma :: x) :=
  scansTo_append scansTo_punct.2.2.2.2.1 h

theorem scansTo_cons_colon {a : Str} {x : List Token} (h : ScansTo a x) :
    ScansTo (':' :: a) (Token.colon :: x) :=
  scansTo_append scansTo_punct.2.2.2.2.2 h

theorem scansTo_join {β : Type} (encText : β → Str) (encTok : β → List Token)
    (h : ∀ b, ScansTo (encText b) (encTok b)) :
    ∀ bs : List β, ScansTo (joinComma (bs.map encText)) (joinTokens (bs.map encTok)) := by
  intro bs
  induction bs with
  | nil => exact scansTo_nil
  | cons b bs ih =>
    cases bs with
    | nil => exact h b
    | cons b2 bs => exact scansTo_append (h b) (scansTo_cons_comma ih)

theorem scansTo_member (k v : Str) :
    ScansTo (marshalMember k v) [Token.str k, Token.colon, Token.str v] :=
  scansTo_append (scansTo_quote k) (scansTo_cons_colon (scansTo_quote v))

theorem scansTo_commit (c : CommitMessage) : ScansTo (marshalCommit c) (commitTokens c) :=
  scansTo_cons_lbrace (scansTo_append
    (scansTo_join (fun p : Str × Str => marshalMember p.1 p.2)
      (fun p => [Token.str p.1, Token.colon, Token.str p.2])
      (fun p => scansTo_member p.1 p.2) (commitPairs c))
    scansTo_punct.2.2.2.1)

theorem scansTo_commits (cs : List CommitMessage) :
    ScansTo (marshalCommits cs) (commitsTokens cs) :=
  scansTo_cons_lbrack (scansTo_append (scansTo_join _ _ scansTo_commit cs) scansTo_punct.2.1)

theorem scansTo_group (g : ChangeLog) : ScansTo (marshalChangeLog g) (groupTokens g) :=
  scansTo_cons_lbrace (scansTo_append (scansTo_append (scansTo_member _ _)
    (scansTo_cons_comma (scansTo_append (scansTo_quote _)
      (scansTo_cons_colon (scansTo_commits g.Commits))))) scansTo_punct.2.2.2.1)

/-- The tokens of the text `json.Marshal` writes for the change log. -/
theorem tokenize_marshalChangeLogs (gs : List ChangeLog) :
    tokenize .outside (marshalChangeLogs gs) =
      some (match gs with
        | [] => [Token.null]
        | g :: gs => Token.lbrack :: (joinTokens ((g :: gs).map groupTokens) ++ [Token.rbrack])) := by
  cases gs with
  | nil => simp [marshalChangeLogs, tokenize, isJsonSpace]
  | cons g gs =>
    have h := scansTo_cons_lbrack (scansTo_append (scansTo_join _ _ scansTo_group (g :: gs))
      scansTo_punct.2.1) []
    have e : "]".toList = [']'] := rfl
    simp only [List.append_nil, e] at h
    rw [marshalChangeLogs, h]
    simp [tokenize]

/-! ## Theorems: parsing what `json.Marshal` writes -/

theorem sepList_join {α β : Type} (elem : List Token → Option (α × List Token))
    (close : Token) (hclose : close ≠ Token.comma) (enc : β → List Token) (dec : β → α)
    (h : ∀ b rest, elem (enc b ++ rest) = some (dec b, rest)) :
    ∀ (bs : List β) (fuel : Nat) (rest : List Token), bs ≠ [] → bs.length ≤ fuel →
      sepList elem close fuel (joinTokens (bs.map enc) ++ close :: rest) =
        some (bs.map dec, rest) := by
  intro bs
  induction bs with
  | nil => intro fuel rest hne; exact absurd rfl hne
  | cons b bs ih =>
    intro fuel rest _ hf
    cases fuel with
    | zero => simp at hf
    | succ n =>
      cases bs with
      | nil => simp [sepList, joinTokens, h, hclose]
      | cons b2 bs =>
        have hn : (b2 :: bs).length ≤ n := by simpa using hf
        have := ih n rest (by simp) hn
        simp only [List.map_cons] at this
        simp [sepList, joinTokens, h, this]

theorem length_le_joinTokens {β : Type} (enc : β → List Token) (h : ∀ b, enc b ≠ []) :
    ∀ bs : List β, bs.length ≤ (joinTokens (bs.map enc)).length + 1 := by
  intro bs
  induction bs with
  | nil => simp
  | cons b bs ih =>
    cases bs with
    | nil => simp
    | cons b2 bs =>
      have hb : 0 < (enc b).length := List.length_pos.2 (h b)
      simp only [List.map_cons, joinTokens, List.length_append, List.length_cons] at ih ⊢
      omega

theorem parseObject_commitTokens (c : CommitMessage) (rest : List Token) :
    parseObject (commitTokens c ++ rest) = some (membersOf c, rest) := by
  simp [commitTokens, commitPairs, joinTokens, parseObject, parseMembers, fieldOfKey, membersOf]

theorem assign_membersOf (c : CommitMessage) : zeroCommit.assign (membersOf c) = c := by
  cases c
  rfl

theorem commitTokens_ne_nil (c : CommitMessage) : commitTokens c ≠ [] := by
  simp [commitTokens]

theorem parseCommitArray_commitsTokens (cs : List CommitMessage) (rest : List Token) :
    parseCommitArray (commitsTokens cs ++ rest) = some (some (cs.map membersOf), rest) := by
  cases cs with
  | nil => simp [commitsTokens, joinTokens, parseCommitArray]
  | cons c cs =>
    have hlen := length_le_joinTokens commitTokens commitTokens_ne_nil (c :: cs)
    have hj := sepList_join parseObject Token.rbrack (by decide) commitTokens membersOf
      parseObject_commitTokens (c :: cs)
      (joinTokens ((c :: cs).map commitTokens) ++ Token.rbrack :: rest).length rest (by simp)
      (by simp only [List.length_append, List.length_cons] at hlen ⊢; omega)
    obtain ⟨tl, htl⟩ : ∃ tl, joinTokens ((c :: cs).map commitTokens) =
        Token.lbrace :: tl := by
      cases cs with
      | nil => exact ⟨_, rfl⟩
      | cons c2 cs => exact ⟨_, rfl⟩
    have e : commitsTokens (c :: cs) ++ rest =
        Token.lbrack :: (joinTokens ((c :: cs).map commitTokens) ++ Token.rbrack :: rest) := by
      simp [commitsTokens]
    rw [e]
    rw [htl] at hj ⊢
    simp only [List.cons_append, parseCommitArray]
    simp only [List.cons_append] at hj
    rw [hj]

theorem parseGroup_groupTokens (g : ChangeLog) (rest : List Token) :
    parseGroup (groupTokens g ++ rest) =
      some ([GroupMember.nameTags g.NameTags,
        GroupMember.commits (some (g.Commits.map membersOf))], rest) := by
  have hc := parseCommitArray_commitsTokens g.Commits (Token.rbrace :: rest)
  obtain ⟨n, hn⟩ : ∃ n, ([Token.str "NameTags".toList, Token.colon, Token.str g.NameTags] ++
      Token.comma :: (Token.str "Commits".toList :: Token.colon :: commitsTokens g.Commits) ++
      [Token.rbrace] ++ rest).length = n + 2 := by
    refine ⟨(commitsTokens g.Commits).length + rest.length + 5, ?_⟩
    simp only [List.length_append, List.length_cons, List.length_nil]
    omega
  have h1 : parseGroupMember (Token.str "NameTags".toList :: Token.colon ::
      Token.str g.NameTags :: Token.comma :: (Token.str "Commits".toList :: Token.colon ::
        (commitsTokens g.Commits ++ Token.rbrace :: rest))) =
      some (GroupMember.nameTags g.NameTags, Token.comma ::
        (Token.str "Commits".toList :: Token.colon ::
          (commitsTokens g.Commits ++ Token.rbrace :: rest))) := by
    simp [parseGroupMember]
  have h2 : parseGroupMember (Token.str "Commits".toList :: Token.colon ::
      (commitsTokens g.Commits ++ Token.rbrace :: rest)) =
      some (GroupMember.commits (some (g.Commits.map membersOf)), Token.rbrace :: rest) := by
    obtain ⟨tl, htl⟩ : ∃ tl, commitsTokens g.Commits = Token.lbrack :: tl := ⟨_, rfl⟩
    rw [htl] at hc ⊢
    simp only [List.cons_append] at hc ⊢
    rw [parseGroupMember]
    · simp [hc]
    · intro v r hv
      simp at hv
  have e : groupTokens g ++ rest = Token.lbrace ::
      ([Token.str "NameTags".toList, Token.colon, Token.str g.NameTags] ++
      Token.comma :: (Token.str "Commits".toList :: Token.colon :: commitsTokens g.Commits) ++
      [Token.rbrace] ++ rest) := by
    simp [groupTokens]
  rw [e, parseGroup]
  · rw [hn]
    simp only [List.cons_append, List.nil_append, List.append_assoc, List.singleton_append,
      sepList, h1, h2]
    simp
  · intro r hr
    simp at hr

theorem buildGroup_members (g : ChangeLog) :
    buildGroup [GroupMember.nameTags g.NameTags,
      GroupMember.commits (some (g.Commits.map membersOf))] none none = some g := by
  cases g with
  | mk n cs =>
    simp [buildGroup, List.map_map, Function.comp_def, assign_membersOf]

theorem buildGroups_members :
    ∀ gs : List ChangeLog,
      buildGroups (gs.map (fun g => [GroupMember.nameTags g.NameTags,
        GroupMember.commits (some (g.Commits.map membersOf))])) = some gs := by
  intro gs
  induction gs with
  | nil => rfl
  | cons g gs ih => simp only [List.map_cons, buildGroups, buildGroup_members, ih]

theorem groupTokens_ne_nil (g : ChangeLog) : groupTokens g ≠ [] := by
  simp [groupTokens]

/-- Decoding the text `json.Marshal` writes for a change log gives the change log
back. -/
theorem unmarshal_marshal (gs : List ChangeLog) :
    unmarshalChangeLogs (marshalChangeLogs gs) = some gs := by
  unfold unmarshalChangeLogs
  rw [tokenize_marshalChangeLogs]
  cases gs with
  | nil => simp [parseGroupArray, buildGroups]
  | cons g gs =>
    have hlen := length_le_joinTokens groupTokens groupTokens_ne_nil (g :: gs)
    have hj := sepList_join parseGroup Token.rbrack (by decide) groupTokens
      (fun g => [GroupMember.nameTags g.NameTags,
        GroupMember.commits (some (g.Commits.map membersOf))])
      parseGroup_groupTokens (g :: gs)
      (joinTokens ((g :: gs).map groupTokens) ++ [Token.rbrack]).length [] (by simp)
      (by simp only [List.length_append, List.length_cons] at hlen ⊢; omega)
    obtain ⟨tl, htl⟩ : ∃ tl, joinTokens ((g :: gs).map groupTokens) =
        Token.lbrace :: tl := by
      cases gs with
      | nil => exact ⟨_, rfl⟩
      | cons g2 gs => exact ⟨_, rfl⟩
    have hm := buildGroups_members (g :: gs)
    simp only []
    rw [htl] at hj ⊢
    simp only [List.cons_append, parseGroupArray]
    simp only [List.cons_append] at hj
    rw [hj]
    exact hm

/-! ## Theorems: the JSON text of the report -/

set_option maxRecDepth 100000 in
theorem buildReport_sample : buildReport sampleGit mainReleasePattern = some sampleReport := by
  have hu : fetchProjectURL sampleGit.remoteURL = "https://github.com/org/repo/".toList := by
    decide
  simp only [buildReport, fetchChanges_sample, hu]
  rfl

/-- C8: for every report that `buildReport` returns, `Report.JSON` is the text
`json.Marshal` writes for `Report.ChangeLog`, and decoding that text gives back the same
sequence of groups: same number of groups, same range labels, and the same six field
values for every commit. -/
theorem buildReport_json_round_trip (git : Git) (P : Regex) (r : Report)
    (h : buildReport git P = some r) :
    r.JSON = marshalChangeLogs r.ChangeLog ∧
    unmarshalChangeLogs r.JSON = some r.ChangeLog := by
  have hj : r.JSON = marshalChangeLogs r.ChangeLog := by
    unfold buildReport at h
    cases hr : (fetchChanges git P).result with
    | none => rw [hr] at h; simp at h
    | some cl =>
      rw [hr] at h
      simp only [Option.some.injEq] at h
      rw [← h]
  exact ⟨hj, by rw [hj]; exact unmarshal_marshal _⟩

theorem buildReport_json_round_trip_witness :
    unmarshalChangeLogs sampleReport.JSON = some sampleReport.ChangeLog :=
  (buildReport_json_round_trip sampleGit mainReleasePattern sampleReport buildReport_sample).2
end ChangesReporter
